import Mathlib

/-!
Verification of the parallel execution engine of `kedro.runner.parallel_runner`.

The development shallowly embeds, in Lean, the pieces of
`src/kedro/runner/parallel_runner.py` that the claims talk about:

* `_SharedMemoryDataSet.save` (shared-memory proxy save diagnosis),
* `ParallelRunner._validate_nodes` and `ParallelRunner._validate_catalog`
  (pre-flight validation),
* `ParallelRunner.__init__` / `ParallelRunner._get_required_workers_count`
  (worker-count computation),
* `_run_node_synchronization` / `_bootstrap_subprocess` (worker bootstrap),
* the scheduler loop of `ParallelRunner._run` (ready-set computation,
  dispatch, first-completed wait, done bookkeeping, load-count release,
  deadlock detection).

External behaviour (Python pickling, the OS, the process pool) is modelled by
explicit outcome fields on the embedded values, so every definition is
executable.
-/

set_option maxHeartbeats 1600000

namespace KedroParallel

/-- Outcome of attempting to pickle a Python object
(`ForkingPickler.dumps(...)` / `pickle.dumps(...)`): success, an
`AttributeError`, a `PicklingError`, or any other exception type
(for example `TypeError`).  This models the external pickling call. -/
inductive PickleOutcome where
  | ok
  | attrError
  | picklingError
  | otherError
deriving DecidableEq, Repr

/-- A kedro `Node` as the runner sees it: an identity, the ordered list of
input dataset names (`node.inputs`), the ordered list of output dataset names
(`node.outputs`), and the outcome of `ForkingPickler.dumps(node)` used by
`ParallelRunner._validate_nodes` (external behaviour, modelled as a field). -/
structure Node where
  id : Nat
  inputs : List String
  outputs : List String
  pickle : PickleOutcome
deriving DecidableEq, Repr

/-- A kedro `Pipeline` at the interface the runner consumes (spec section 6):
the node list `pipeline.nodes`, the precomputed dependency map
`pipeline.node_dependencies`, and the run-level external datasets
`pipeline.inputs()` / `pipeline.outputs()`. -/
structure Pipeline where
  nodes : List Node
  deps : Node → List Node
  extInputs : List String
  extOutputs : List String

/-! ### `_SharedMemoryDataSet.save` (parallel_runner.py lines 47-61) -/

/-- A value passed to `_SharedMemoryDataSet.save`, with the external
behaviour the method depends on: whether `self.shared_memory_dataset.save(data)`
raises (and which exception, identified by a number), whether
`pickle.dumps(data)` succeeds, and `str(data.__class__)`. -/
structure SMValue where
  managerSaveError : Option Nat
  picklable : Bool
  className : String
deriving DecidableEq, Repr

/-- Result of `_SharedMemoryDataSet.save`: normal return, a raised
`DataSetError` with its message, or the original manager exception
re-raised unchanged. -/
inductive SaveResult where
  | ok
  | dataSetError (msg : String)
  | reraised (e : Nat)
deriving DecidableEq, Repr

/-- The `DataSetError` message built by `_SharedMemoryDataSet.save`. -/
def smErrorMessage (v : SMValue) : String :=
  v.className ++ " cannot be serialized. ParallelRunner " ++
    "implicit memory datasets can only be used with serializable data"

/-- Embedding of `_SharedMemoryDataSet.save`: delegate to the manager-backed
save; on any exception, probe `pickle.dumps(data)`; if the probe also fails
raise a `DataSetError` naming the class, otherwise re-raise the original
exception. -/
def sharedMemorySave (v : SMValue) : SaveResult :=
  match v.managerSaveError with
  | none => .ok
  | some e =>
    if v.picklable then .reraised e
    else .dataSetError (smErrorMessage v)

/-! ### Worker-count computation (parallel_runner.py lines 126-154, 239-251) -/

/-- The Windows worker cap from `concurrent.futures`
(`_MAX_WINDOWS_WORKERS` in parallel_runner.py line 23). -/
def maxWindowsWorkers : Int := 61

/-- Embedding of the `max_workers` initialisation in `ParallelRunner.__init__`
(lines 147-154): when `max_workers` is not given it is `os.cpu_count() or 1`,
further capped at 61 on `sys.platform == "win32"`; when it is given it is
stored unchanged.  `cpuCount` models `os.cpu_count()` (`none` in weird cases,
and Python `or 1` also replaces a falsy `0`). -/
def initMaxWorkers (maxWorkers : Option Int) (cpuCount : Option Int)
    (isWin32 : Bool) : Int :=
  match maxWorkers with
  | some m => m
  | none =>
    let m := match cpuCount with
      | none => 1
      | some c => if c = 0 then 1 else c
    if isWin32 then min maxWindowsWorkers m else m

/-- Embedding of `ParallelRunner._get_required_workers_count` (lines 239-251):
`min(len(pipeline.nodes) - len(pipeline.grouped_nodes) + 1, self._max_workers)`.
`numNodes` is the node count and `numLayers` the number of toposort layers
(`grouped_nodes`). -/
def getRequiredWorkersCount (numNodes numLayers maxWorkers : Int) : Int :=
  min (numNodes - numLayers + 1) maxWorkers

/-! ### Worker bootstrap (parallel_runner.py lines 75-115) -/

/-- Observable actions of worker-side code: the two bootstrap actions of
`_bootstrap_subprocess` (`configure_project(package_name)` and
`logging.config.dictConfig(conf_logging)`) and the `run_node` call. -/
inductive WorkerEvent where
  | configureProject (pkg : String)
  | configLogging
  | runNode (n : Node)
deriving DecidableEq, Repr

/-- Embedding of `_bootstrap_subprocess` (lines 75-80): registers the project
package and configures logging. -/
def bootstrapSubprocess (pkg : String) : List WorkerEvent :=
  [.configureProject pkg, .configLogging]

/-- Embedding of `_run_node_synchronization` (lines 83-115) as its trace of
worker events: when the start method is `"spawn"` and a (truthy) package name
is set, `_bootstrap_subprocess` runs first, then `run_node`.  `pkg = none`
models a falsy `package_name`. -/
def runNodeSynchronization (spawn : Bool) (pkg : Option String) (n : Node) :
    List WorkerEvent :=
  (if spawn then
    match pkg with
    | some p => bootstrapSubprocess p
    | none => []
  else []) ++ [.runNode n]

/-- Modelled from the spec: the worker-process main loop of
`concurrent.futures.ProcessPoolExecutor` is external to this repository.
A worker process executes the callables submitted to it one after another;
each task submitted by `ParallelRunner._run` is a
`_run_node_synchronization` call.  The trace of one worker process that
executes the list `tasks` is the concatenation of the per-task traces. -/
def workerTrace (spawn : Bool) (pkg : Option String) (tasks : List Node) :
    List WorkerEvent :=
  tasks.flatMap (runNodeSynchronization spawn pkg)

/-- Number of bootstrap executions (counted by `configure_project` events)
in a worker trace. -/
def bootstrapCount (evs : List WorkerEvent) : Nat :=
  (evs.filter fun e =>
    match e with
    | .configureProject _ => true
    | _ => false).length

/-! ### `ParallelRunner._validate_nodes` (parallel_runner.py lines 174-192) -/

/-- Failure modes of `_validate_nodes`: the aggregated `AttributeError`
listing `sorted(unserializable)`, or an exception raised by
`ForkingPickler.dumps` that is not an `AttributeError` or `PicklingError`
and therefore escapes the `except` clause. -/
inductive NodeValidationError where
  | aggregated (ns : List Node)
  | propagated (n : Node)
deriving DecidableEq, Repr

/-- The collection loop of `_validate_nodes`: try to pickle each node,
collecting nodes whose pickling raises `AttributeError` or `PicklingError`;
any other exception propagates immediately (carried by `.error`). -/
def collectUnserializableNodes : List Node → Except Node (List Node)
  | [] => .ok []
  | n :: rest =>
    match n.pickle with
    | .ok => collectUnserializableNodes rest
    | .attrError => (collectUnserializableNodes rest).map (n :: ·)
    | .picklingError => (collectUnserializableNodes rest).map (n :: ·)
    | .otherError => .error n

/-- Embedding of `ParallelRunner._validate_nodes`: collect all
non-picklable nodes and, if any, raise one error naming them all, sorted.
Python sorts the `Node` objects themselves; the `Node` order (`Node.__lt__`,
defined outside this file's source) is modelled as ordering by node identity. -/
def validateNodes (ns : List Node) : Except NodeValidationError Unit :=
  match collectUnserializableNodes ns with
  | .error n => .error (.propagated n)
  | .ok l =>
    if l.isEmpty then .ok ()
    else .error (.aggregated (l.insertionSort fun a b => a.id ≤ b.id))

/-! ### `ParallelRunner._validate_catalog` (parallel_runner.py lines 194-237) -/

/-- A catalog dataset handle as `_validate_catalog` sees it:
`getattr(data_set, "_SINGLE_PROCESS", False)`, the outcome of
`ForkingPickler.dumps(data_set)`, `isinstance(data_set, MemoryDataSet)` and
`isinstance(data_set, BaseProxy)`. -/
structure DataSetHandle where
  singleProcess : Bool
  pickle : PickleOutcome
  isMemoryDataSet : Bool
  isBaseProxy : Bool
deriving DecidableEq, Repr

/-- The catalog at the interface `_validate_catalog` consumes:
`catalog._data_sets` as an association list in iteration order. -/
structure Catalog where
  dataSets : List (String × DataSetHandle)
deriving DecidableEq, Repr

/-- Failure modes of `_validate_catalog`: the aggregated
cannot-be-used-with-multiprocessing `AttributeError` (sorted names), the
aggregated memory-data-sets `AttributeError` (sorted names), or an uncaught
exception from pickling a handle. -/
inductive CatalogValidationError where
  | multiprocessing (names : List String)
  | memory (names : List String)
  | propagated (name : String)
deriving DecidableEq, Repr

/-- The test deciding whether a node is collected by `_validate_nodes`:
its pickling raises `AttributeError` or `PicklingError`. -/
def nodeOffending (n : Node) : Bool :=
  decide (n.pickle = .attrError) || decide (n.pickle = .picklingError)

/-- The test deciding whether a catalog entry is collected by the first
`_validate_catalog` loop: marked `_SINGLE_PROCESS`, or pickling raises
`AttributeError` or `PicklingError`. -/
def dsOffending (p : String × DataSetHandle) : Bool :=
  p.2.singleProcess || decide (p.2.pickle = .attrError) ||
    decide (p.2.pickle = .picklingError)

/-- The first collection loop of `_validate_catalog`: a handle marked
`_SINGLE_PROCESS` is appended to the offending list outright (`continue`);
otherwise its pickling is attempted, `AttributeError` and `PicklingError`
are collected, and any other exception propagates. -/
def collectUnserializableDataSets :
    List (String × DataSetHandle) → Except String (List String)
  | [] => .ok []
  | (name, d) :: rest =>
    if d.singleProcess then
      (collectUnserializableDataSets rest).map (name :: ·)
    else
      match d.pickle with
      | .ok => collectUnserializableDataSets rest
      | .attrError => (collectUnserializableDataSets rest).map (name :: ·)
      | .picklingError => (collectUnserializableDataSets rest).map (name :: ·)
      | .otherError => .error name

/-- Modelled from the spec: `pipeline.all_outputs()` (the `Pipeline` graph
API is external to the given source files) is the set of every dataset name
produced by some node of the pipeline. -/
def Pipeline.allOutputs (P : Pipeline) : List String :=
  P.nodes.flatMap Node.outputs

/-- The test of the `memory_data_sets` comprehension (lines 223-231): the
entry is a pipeline output, a `MemoryDataSet`, and not a manager proxy. -/
def memOffending (P : Pipeline) (p : String × DataSetHandle) : Bool :=
  decide (p.1 ∈ P.allOutputs) && p.2.isMemoryDataSet && !p.2.isBaseProxy

/-- Embedding of `ParallelRunner._validate_catalog`: first the
transferability loop with its aggregated error, then (only if it passed) the
plain-`MemoryDataSet`-as-pipeline-output check with its aggregated error. -/
def validateCatalog (c : Catalog) (P : Pipeline) :
    Except CatalogValidationError Unit :=
  match collectUnserializableDataSets c.dataSets with
  | .error n => .error (.propagated n)
  | .ok l =>
    if l.isEmpty then
      let mem := (c.dataSets.filter (memOffending P)).map Prod.fst
      if mem.isEmpty then .ok ()
      else .error (.memory (mem.insertionSort (· ≤ ·)))
    else .error (.multiprocessing (l.insertionSort (· ≤ ·)))

/-! ### Load counts and dataset release (parallel_runner.py lines 278, 333-348) -/

/-- Embedding of
`load_counts = Counter(chain.from_iterable(n.inputs for n in nodes))`
(line 278).  A `Counter` returns `0` for absent keys, so it is a total
function from names to integers. -/
def loadCountsInit (P : Pipeline) : String → Int :=
  fun s => (P.nodes.map fun n => (n.inputs.count s : Int)).sum

/-- One iteration of the input-release loop (lines 336-342): decrement the
load count of the dataset and release it when the count fell below 1 and the
dataset is not a run-level external input.  The state is the load-count
table together with the releases made so far (in call order). -/
def releaseInputStep (extInputs : List String)
    (s : (String → Int) × List String) (ds : String) :
    (String → Int) × List String :=
  let v := s.1 ds - 1
  let lc := Function.update s.1 ds v
  if v < 1 ∧ ds ∉ extInputs then (lc, s.2 ++ [ds]) else (lc, s.2)

/-- One iteration of the output-release loop (lines 343-348): release the
output dataset when its load count is below 1 and it is not a run-level
external output.  The load count is not modified. -/
def releaseOutputStep (extOutputs : List String)
    (s : (String → Int) × List String) (ds : String) :
    (String → Int) × List String :=
  if s.1 ds < 1 ∧ ds ∉ extOutputs then (s.1, s.2 ++ [ds]) else s

/-- The bookkeeping performed by `_run` when one node completes
(lines 333-348): walk the node's inputs with `releaseInputStep`, then its
outputs with `releaseOutputStep`.  Returns the new load-count table and the
list of `catalog.release` calls made for this completion, in order. -/
def nodeCompletionBook (P : Pipeline) (lc : String → Int) (n : Node) :
    (String → Int) × List String :=
  n.outputs.foldl (releaseOutputStep P.extOutputs)
    (n.inputs.foldl (releaseInputStep P.extInputs) (lc, []))

/-- The release trace of a sequence of node completions: for each completed
node, in completion order, the `catalog.release` calls its completion
triggered. -/
def completionTrace (P : Pipeline) :
    (String → Int) → List Node → List (Node × List String)
  | _, [] => []
  | lc, n :: rest =>
    let s := nodeCompletionBook P lc n
    (n, s.2) :: completionTrace P s.1 rest

/-- The release trace of a full run whose nodes complete in the order
`order`, starting from the `Counter`-initialised load counts. -/
def runReleases (P : Pipeline) (order : List Node) :
    List (Node × List String) :=
  completionTrace P (loadCountsInit P) order

/-- How many times the nodes of `order` consume dataset `ds` as an input
(with multiplicity). -/
def consumeCount (ds : String) (order : List Node) : Nat :=
  (order.map fun n => n.inputs.count ds).sum

/-- How many `catalog.release ds` calls a release trace contains. -/
def releaseCount (ds : String) (tr : List (Node × List String)) : Nat :=
  (tr.map fun e => e.2.count ds).sum

/-- Data-flow consistency of a completion order with respect to dataset
`ds`: no completion consumes `ds` before (or at) the completion of a node
producing `ds`.  Every execution respecting the dependency graph derived
from shared input/output names satisfies this, because the producer
completes strictly before any consumer is dispatched. -/
def ProducersFirst (ds : String) (order : List Node) : Prop :=
  ∀ i (hi : i < order.length), ds ∈ (order.get ⟨i, hi⟩).outputs →
    consumeCount ds (order.take i) = 0 ∧
      (order.get ⟨i, hi⟩).inputs.count ds = 0

/-! ### The scheduler loop of `ParallelRunner._run` (parallel_runner.py lines 253-348) -/

/-- The scheduler-local run state of `_run`: `todo_nodes`, the in-flight
`futures`, `done_nodes` kept as the ordered list of additions (its set view
is `SchedState.doneSet`), the load-count table, the `catalog.release` trace,
the dispatch trace (each submitted node paired with `done_nodes` at the
moment of submission), this iteration's `ready` set, and the `done` variable
holding the last completed-futures set from `wait` (`none` before the first
wait, mirroring `done = None`). -/
structure SchedState where
  todo : Finset Node
  futures : Finset Node
  doneList : List Node
  lc : String → Int
  releases : List String
  dispatches : List (Finset Node × Finset Node)
  lastReady : Finset Node
  lastDone : Option (Finset Node)

/-- The `done_nodes` set. -/
def SchedState.doneSet (st : SchedState) : Finset Node :=
  st.doneList.toFinset

/-- The ready-set computation of line 294:
`ready = {n for n in todo_nodes if node_dependencies[n] <= done_nodes}`. -/
def readyNodes (P : Pipeline) (st : SchedState) : Finset Node :=
  st.todo.filter fun n => ∀ d ∈ P.deps n, d ∈ st.doneSet

/-- The dispatch step of lines 294-307: compute `ready`, remove it from
`todo_nodes`, submit every ready node to the pool.  The dispatch trace
records each submitted batch (the ready set) together with the `done_nodes`
set at the moment of submission. -/
def dispatch (P : Pipeline) (st : SchedState) : SchedState :=
  let ready := readyNodes P st
  { st with
    todo := st.todo \ ready
    futures := st.futures ∪ ready
    dispatches := st.dispatches ++ [(ready, st.doneSet)]
    lastReady := ready }

/-- All nodes submitted over a list of dispatch events. -/
def dispatchedSet (l : List (Finset Node × Finset Node)) : Finset Node :=
  l.foldr (fun e acc => e.1 ∪ acc) ∅

/-- Total number of pool submissions over a list of dispatch events
(counting a node once per submission). -/
def dispatchedCount (l : List (Finset Node × Finset Node)) : Nat :=
  (l.map fun e => e.1.card).sum

/-- The completion-processing loop of lines 325-348, over the completed
futures in the order Python iterates them: a completed node whose execution
raised (`fails n = true`) aborts with the exception re-raised (after
`_suggest_resume_scenario`); a successful node is added to `done_nodes` and
its release bookkeeping is performed. -/
def processCompleted (P : Pipeline) (fails : Node → Bool) :
    List Node → SchedState → Except (Node × SchedState) SchedState
  | [], st => .ok st
  | n :: rest, st =>
    if fails n then .error (n, st)
    else
      let s := nodeCompletionBook P st.lc n
      processCompleted P fails rest
        { st with
          doneList := st.doneList ++ [n]
          lc := s.1
          releases := st.releases ++ s.2 }

/-- The `debug_data` dictionary built in the deadlock branch
(lines 310-315): `todo_nodes`, `done_nodes`, `ready_nodes`, `done_futures`. -/
structure DebugData where
  todoNodes : Finset Node
  doneNodes : Finset Node
  readyNodes : Finset Node
  doneFutures : Option (Finset Node)
deriving DecidableEq

/-- The `debug_data` dump the `RuntimeError` message is built from. -/
def debugData (st : SchedState) : DebugData :=
  { todoNodes := st.todo
    doneNodes := st.doneSet
    readyNodes := st.lastReady
    doneFutures := st.lastDone }

/-- Outcome of the scheduler loop: normal `break`, the deadlock
`RuntimeError` (carrying its `debug_data` dump), a node exception re-raised
out of the loop, or fuel exhaustion of the embedding (never reached with
enough fuel). -/
inductive RunOutcome where
  | ok (st : SchedState)
  | deadlock (debug : DebugData) (st : SchedState)
  | nodeFailure (n : Node) (st : SchedState)
  | outOfFuel (st : SchedState)

/-- The final scheduler state carried by an outcome. -/
def RunOutcome.state : RunOutcome → SchedState
  | .ok st => st
  | .deadlock _ st => st
  | .nodeFailure _ st => st
  | .outOfFuel st => st

/-- The `while True` scheduler loop of lines 293-348.  `pick st` models
`wait(futures, return_when=FIRST_COMPLETED)` followed by the iteration order
of the `for future in done` loop: the completed futures as an ordered list
(a faithful oracle returns a nonempty duplicate-free sublist of the
in-flight futures).  The loop: dispatch the ready set; if no futures are
in flight, raise the deadlock `RuntimeError` when work remains, otherwise
`break`; else wait for the first completions and process them. -/
def runLoop (P : Pipeline) (fails : Node → Bool)
    (pick : SchedState → List Node) : Nat → SchedState → RunOutcome
  | 0, st => .outOfFuel st
  | fuel + 1, st =>
    let st1 := dispatch P st
    if st1.futures = ∅ then
      if st1.todo = ∅ then .ok st1
      else .deadlock (debugData st1) st1
    else
      let completed := pick st1
      let st2 := { st1 with
        futures := st1.futures \ completed.toFinset
        lastDone := some completed.toFinset }
      match processCompleted P fails completed st2 with
      | .error (n, stf) => .nodeFailure n stf
      | .ok st3 => runLoop P fails pick fuel st3

/-- The initial run state of lines 278-283.  Modelled from the spec:
`node_dependencies` (external `Pipeline` API) has every pipeline node as a
key, so `todo_nodes = set(node_dependencies.keys())` is the set of all
nodes. -/
def initState (P : Pipeline) : SchedState :=
  { todo := P.nodes.toFinset
    futures := ∅
    doneList := []
    lc := loadCountsInit P
    releases := []
    dispatches := []
    lastReady := ∅
    lastDone := none }

/-- The scheduler part of `_run`, from the initial state. -/
def runSched (P : Pipeline) (fails : Node → Bool)
    (pick : SchedState → List Node) (fuel : Nat) : RunOutcome :=
  runLoop P fails pick fuel (initState P)

/-- A pre-flight failure of `_run`: one of the two validators raised.
`_validate_catalog` is called before `_validate_nodes` (lines 275-276). -/
inductive ValidationError where
  | catalogError (e : CatalogValidationError)
  | nodesError (e : NodeValidationError)
deriving DecidableEq, Repr

/-- Embedding of `ParallelRunner._run` end to end: validate the catalog,
validate the nodes, then run the scheduler loop. -/
def parallelRun (P : Pipeline) (c : Catalog) (fails : Node → Bool)
    (pick : SchedState → List Node) (fuel : Nat) :
    Except ValidationError RunOutcome :=
  match validateCatalog c P with
  | .error e => .error (.catalogError e)
  | .ok _ =>
    match validateNodes P.nodes with
    | .error e => .error (.nodesError e)
    | .ok _ => .ok (runSched P fails pick fuel)

/-- The set of nodes submitted to the pool over a whole `_run` call; empty
when validation failed before the loop started. -/
def dispatchedNodes : Except ValidationError RunOutcome → Finset Node
  | .error _ => ∅
  | .ok o => dispatchedSet o.state.dispatches

/-- A faithful completion oracle for runs of pipeline `P`: whenever futures
are in flight (they always stay inside the pipeline), `wait` returns a
nonempty subset of them, and Python iterates each completed future exactly
once. -/
def ValidPick (P : Pipeline) (pick : SchedState → List Node) : Prop :=
  ∀ st : SchedState, st.futures ⊆ P.nodes.toFinset → st.futures.Nonempty →
    pick st ≠ [] ∧ (pick st).Nodup ∧ ∀ n ∈ pick st, n ∈ st.futures

/-- A valid acyclic dependency graph: dependencies stay inside the pipeline
and some ranking decreases along dependency edges (no cycles). -/
def AcyclicPipeline (P : Pipeline) (rank : Node → Nat) : Prop :=
  (∀ n ∈ P.nodes, ∀ d ∈ P.deps n, d ∈ P.nodes) ∧
  (∀ n ∈ P.nodes, ∀ d ∈ P.deps n, rank d < rank n)

/-- Topological dispatch safety of a dispatch trace: every node of every
submitted batch had all of its dependencies inside `done_nodes` at the
moment of submission. -/
def DispatchSafe (P : Pipeline) (l : List (Finset Node × Finset Node)) :
    Prop :=
  ∀ e ∈ l, ∀ n ∈ e.1, ∀ d ∈ P.deps n, d ∈ e.2

/-- The state carried by either outcome of the completion-processing loop. -/
def outState (r : Except (Node × SchedState) SchedState) : SchedState :=
  match r with
  | .ok st => st
  | .error (_, st) => st

/-- The scheduler-loop invariant of `_run`: `todo_nodes`, `futures` and
`done_nodes` are pairwise disjoint and together cover exactly the pipeline
nodes; `done_nodes` holds no duplicates; and the dispatch trace covers
exactly `futures ∪ done_nodes`, each node submitted exactly once. -/
structure SchedInv (P : Pipeline) (st : SchedState) : Prop where
  disj_tf : Disjoint st.todo st.futures
  disj_td : Disjoint st.todo st.doneSet
  disj_fd : Disjoint st.futures st.doneSet
  cover : st.todo ∪ st.futures ∪ st.doneSet = P.nodes.toFinset
  nodup : st.doneList.Nodup
  dispSet : dispatchedSet st.dispatches = st.futures ∪ st.doneSet
  dispCount : dispatchedCount st.dispatches = st.futures.card + st.doneSet.card

/-- A sample node producing dataset `a`, used to instantiate theorems on
concrete inputs. -/
def sampleA : Node := ⟨0, [], ["a"], .ok⟩

/-- A sample node consuming dataset `a`. -/
def sampleB : Node := ⟨1, ["a"], [], .ok⟩

/-- A two-node sample pipeline in which `sampleB` depends on `sampleA`. -/
def samplePipeline : Pipeline :=
  { nodes := [sampleA, sampleB]
    deps := fun n => if n.id = 1 then [sampleA] else []
    extInputs := []
    extOutputs := [] }

/-- A cyclic two-node pipeline (each node depends on the other), used to
exercise the deadlock branch on a concrete input. -/
def cyclicPipeline : Pipeline :=
  { nodes := [sampleA, sampleB]
    deps := fun n => if n.id = 0 then [sampleB] else [sampleA]
    extInputs := []
    extOutputs := [] }

/-- A concrete completion oracle: every in-flight pipeline node completes,
in pipeline order. -/
def pickAll (P : Pipeline) : SchedState → List Node :=
  fun st => P.nodes.filter (fun n => decide (n ∈ st.futures))

/-! ## Theorems -/

/-- C7: for every value handed to `_SharedMemoryDataSet.save`, a successful
manager-backed save raises nothing; when the manager-backed save raises and
the independent pickling probe succeeds, the original exception is re-raised
unchanged; when the probe also fails, save raises a `DataSetError` whose
message names the value's class and states that implicit memory datasets
require serializable data. -/
theorem shared_memory_save_diagnosis (v : SMValue) :
    (v.managerSaveError = none → sharedMemorySave v = .ok) ∧
    (∀ e, v.managerSaveError = some e → v.picklable = true →
      sharedMemorySave v = .reraised e) ∧
    (∀ e, v.managerSaveError = some e → v.picklable = false →
      sharedMemorySave v = .dataSetError (v.className ++
        " cannot be serialized. ParallelRunner implicit memory datasets can only be used with serializable data")) := by
  refine ⟨fun h => by simp [sharedMemorySave, h], fun e he hp => by
    simp [sharedMemorySave, he, hp], fun e he hp => ?_⟩
  simp only [sharedMemorySave, he, hp, Bool.false_eq_true, if_false]
  rw [smErrorMessage, String.append_assoc]
  exact congrArg SaveResult.dataSetError
    (congrArg (v.className ++ ·) (by decide))

/-- Witness for `shared_memory_save_diagnosis` at a concrete value whose
manager-backed save raises and whose pickling probe fails. -/
theorem shared_memory_save_diagnosis_witness :
    let v : SMValue := ⟨some 5, false, "<class open-file>"⟩
    v.managerSaveError = some 5 ∧ v.picklable = false ∧
      sharedMemorySave v = .dataSetError ("<class open-file>" ++
        " cannot be serialized. ParallelRunner implicit memory datasets can only be used with serializable data") :=
  ⟨rfl, rfl, (shared_memory_save_diagnosis ⟨some 5, false, "<class open-file>"⟩).2.2 5 rfl rfl⟩

/-- C6 (failing input): on Windows, a runner constructed with
`max_workers = 100` and a pipeline of 100 independent nodes (a single
toposort layer) uses `min(100 - 1 + 1, 100) = 100` workers, exceeding the
claimed fixed platform cap of 61: the cap of `__init__` is applied only in
the `max_workers is None` branch, contradicting the `__init__` docstring
(`max_workers ... will be set to min(61, max_workers)` on Windows). -/
theorem windows_cap_bypassed_when_max_workers_explicit :
    initMaxWorkers (some 100) (some 8) true = 100 ∧
    getRequiredWorkersCount 100 1 (initMaxWorkers (some 100) (some 8) true) = 100 ∧
    ¬ getRequiredWorkersCount 100 1 (initMaxWorkers (some 100) (some 8) true)
        ≤ maxWindowsWorkers := by
  refine ⟨rfl, by decide, by decide⟩

/-- Helper: `bootstrapCount` is additive over trace concatenation. -/
theorem bootstrapCount_append (a b : List WorkerEvent) :
    bootstrapCount (a ++ b) = bootstrapCount a + bootstrapCount b := by
  simp [bootstrapCount, List.filter_append]

/-- Helper: one `_run_node_synchronization` call bootstraps exactly once
when the start method is spawn and a package name is set, otherwise not at
all. -/
theorem bootstrapCount_task (spawn : Bool) (pkg : Option String) (n : Node) :
    bootstrapCount (runNodeSynchronization spawn pkg n) =
      if spawn = true ∧ pkg.isSome then 1 else 0 := by
  cases spawn <;> cases pkg <;> rfl

/-- C9 (counterexample): bootstrap is not performed once per worker process.
With the spawn start method and a package name set, a worker process that
executes two assigned nodes performs the project/logging bootstrap twice —
once per node execution, not once. -/
theorem bootstrap_once_per_worker_counterexample :
    bootstrapCount (workerTrace true (some "demo")
      [⟨0, [], ["a"], .ok⟩, ⟨1, ["a"], [], .ok⟩]) = 2 ∧ (2 : Nat) ≠ 1 := by
  constructor
  · rfl
  · decide

/-- C9 (amended): when the start method is spawn and a package name is set,
project registration and logging configuration are re-established before the
assigned node runs, and this happens on every task execution — a worker that
executes `k` assigned nodes performs the bootstrap `k` times (and zero times
when the start method inherits memory or no package name is set), not once
per worker process. -/
theorem bootstrap_before_node_and_per_task (spawn : Bool) (pkg : Option String)
    (tasks : List Node) :
    (∀ p n, runNodeSynchronization true (some p) n =
      bootstrapSubprocess p ++ [.runNode n]) ∧
    (spawn = true → ∀ p, pkg = some p →
      bootstrapCount (workerTrace spawn pkg tasks) = tasks.length) ∧
    ((spawn = false ∨ pkg = none) →
      bootstrapCount (workerTrace spawn pkg tasks) = 0) := by
  refine ⟨fun p n => rfl, fun hs p hp => ?_, fun h => ?_⟩
  · subst hs; subst hp
    induction tasks with
    | nil => rfl
    | cons t ts ih =>
      rw [workerTrace, List.flatMap_cons, bootstrapCount_append,
        bootstrapCount_task]
      rw [workerTrace] at ih
      rw [ih]
      simp only [Option.isSome_some, and_true, if_pos trivial, List.length_cons]
      omega
  · induction tasks with
    | nil => rfl
    | cons t ts ih =>
      rw [workerTrace, List.flatMap_cons, bootstrapCount_append,
        bootstrapCount_task]
      rw [workerTrace] at ih
      rw [ih]
      rcases h with h | h <;> subst h <;> simp

/-- Witness for `bootstrap_before_node_and_per_task` on a concrete
three-task worker. -/
theorem bootstrap_before_node_and_per_task_witness :
    bootstrapCount (workerTrace true (some "proj")
      [⟨0, [], [], .ok⟩, ⟨1, [], [], .ok⟩, ⟨2, [], [], .ok⟩]) = 3 :=
  (bootstrap_before_node_and_per_task true (some "proj")
    [⟨0, [], [], .ok⟩, ⟨1, [], [], .ok⟩, ⟨2, [], [], .ok⟩]).2.1 rfl "proj" rfl

/-- Helper: when no node raises an uncaught pickling exception, the
`_validate_nodes` collection loop returns exactly the offending nodes in
pipeline order. -/
theorem collectUnserializableNodes_eq (ns : List Node)
    (hno : ∀ n ∈ ns, n.pickle ≠ .otherError) :
    collectUnserializableNodes ns = .ok (ns.filter nodeOffending) := by
  induction ns with
  | nil => rfl
  | cons n rest ih =>
    have hn := hno n (by simp)
    have hrest : ∀ m ∈ rest, m.pickle ≠ .otherError := fun m hm =>
      hno m (by simp [hm])
    cases hpk : n.pickle <;>
      simp_all [collectUnserializableNodes, List.filter_cons, nodeOffending,
        Except.map]

/-- Helper: when no catalog handle raises an uncaught pickling exception,
the first `_validate_catalog` loop returns exactly the names of offending
entries in catalog order. -/
theorem collectUnserializableDataSets_eq (l : List (String × DataSetHandle))
    (hno : ∀ p ∈ l, p.2.pickle ≠ .otherError) :
    collectUnserializableDataSets l =
      .ok ((l.filter dsOffending).map Prod.fst) := by
  induction l with
  | nil => rfl
  | cons p rest ih =>
    have hp := hno p (by simp)
    have hrest : ∀ q ∈ rest, q.2.pickle ≠ .otherError := fun q hq =>
      hno q (by simp [hq])
    obtain ⟨name, d⟩ := p
    by_cases hsp : d.singleProcess <;>
      cases hpk : d.pickle <;>
        simp_all [collectUnserializableDataSets, List.filter_cons, dsOffending,
          Except.map]

/-- C5 (counterexample): the claim says a dataset handle explicitly marked
single-process-only passes the catalog check; in the code a `_SINGLE_PROCESS`
handle is appended to the offending list outright, so a catalog holding one
perfectly picklable single-process handle fails validation. -/
theorem single_process_dataset_rejected :
    validateCatalog ⟨[("spark", ⟨true, .ok, false, false⟩)]⟩
        ⟨[], fun _ => [], [], []⟩ = .error (.multiprocessing ["spark"]) ∧
    validateCatalog ⟨[("spark", ⟨true, .ok, false, false⟩)]⟩
        ⟨[], fun _ => [], [], []⟩ ≠ .ok () := by
  constructor
  · rfl
  · intro h
    have h1 : validateCatalog ⟨[("spark", ⟨true, .ok, false, false⟩)]⟩
        ⟨[], fun _ => [], [], []⟩ = .error (.multiprocessing ["spark"]) := rfl
    rw [h1] at h
    exact Except.noConfusion h

/-- C5 (amended): assuming every handle pickling outcome is caught by the
validator, `_validate_catalog` raises an error if and only if some
registered handle is marked single-process-only or fails pickling
(`AttributeError` / `PicklingError`), or some plain in-memory dataset that
is not a cross-process proxy is an output of the pipeline.  In particular a
single-process-only handle causes failure (it does not pass the check), and
a plain in-memory pipeline output fails validation before any node runs. -/
theorem validate_catalog_error_iff (c : Catalog) (P : Pipeline)
    (hno : ∀ p ∈ c.dataSets, p.2.pickle ≠ .otherError) :
    (∃ e, validateCatalog c P = .error e) ↔
      ((∃ p ∈ c.dataSets, dsOffending p = true) ∨
        (∃ p ∈ c.dataSets, memOffending P p = true)) := by
  rw [validateCatalog, collectUnserializableDataSets_eq c.dataSets hno]
  cases hL : (c.dataSets.filter dsOffending).map Prod.fst with
  | cons a as =>
    have hA : ∃ p ∈ c.dataSets, dsOffending p = true := by
      have ha : a ∈ (c.dataSets.filter dsOffending).map Prod.fst := by
        rw [hL]; exact List.mem_cons_self a as
      obtain ⟨p, hpmem, _⟩ := List.mem_map.mp ha
      have hpf := List.mem_filter.mp hpmem
      exact ⟨p, hpf.1, hpf.2⟩
    simp [hA]
  | nil =>
    rw [List.map_eq_nil_iff, List.filter_eq_nil_iff] at hL
    have hA : ¬ ∃ p ∈ c.dataSets, dsOffending p = true := by
      rintro ⟨p, hp, hb⟩
      exact (hL p hp) (by simp [hb])
    cases hM : (c.dataSets.filter (memOffending P)).map Prod.fst with
    | cons b bs =>
      have hB : ∃ p ∈ c.dataSets, memOffending P p = true := by
        have hb : b ∈ (c.dataSets.filter (memOffending P)).map Prod.fst := by
          rw [hM]; exact List.mem_cons_self b bs
        obtain ⟨p, hpmem, _⟩ := List.mem_map.mp hb
        have hpf := List.mem_filter.mp hpmem
        exact ⟨p, hpf.1, hpf.2⟩
      simp [hB]
    | nil =>
      rw [List.map_eq_nil_iff, List.filter_eq_nil_iff] at hM
      have hB : ¬ ∃ p ∈ c.dataSets, memOffending P p = true := by
        rintro ⟨p, hp, hb⟩
        exact (hM p hp) (by simp [hb])
      simp [hA, hB]

/-- Witness for `validate_catalog_error_iff`: a catalog whose only entry is
a plain in-memory dataset used as a pipeline output fails validation. -/
theorem validate_catalog_error_iff_witness :
    (∀ p ∈ [("m", (⟨false, .ok, true, false⟩ : DataSetHandle))],
        p.2.pickle ≠ PickleOutcome.otherError) ∧
    (∃ e, validateCatalog ⟨[("m", ⟨false, .ok, true, false⟩)]⟩
        ⟨[⟨0, [], ["m"], .ok⟩], fun _ => [], [], []⟩ = .error e) :=
  ⟨by decide, (validate_catalog_error_iff
      ⟨[("m", ⟨false, .ok, true, false⟩)]⟩
      ⟨[⟨0, [], ["m"], .ok⟩], fun _ => [], [], []⟩ (by decide)).mpr
    (Or.inr ⟨("m", ⟨false, .ok, true, false⟩), by simp, by decide⟩)⟩

/-- Helper: an uncaught pickling exception in the `_validate_nodes` loop
surfaces as the exception of the first such node, in pipeline order. -/
theorem collectUnserializableNodes_error (ns : List Node)
    (h : ∃ n ∈ ns, n.pickle = .otherError) :
    ∃ m, ns.find? (fun x => decide (x.pickle = PickleOutcome.otherError))
        = some m ∧
      collectUnserializableNodes ns = .error m := by
  induction ns with
  | nil => simp at h
  | cons n rest ih =>
    cases hpk : n.pickle
    case otherError =>
      refine ⟨n, ?_, ?_⟩
      · simp [List.find?_cons, hpk]
      · simp [collectUnserializableNodes, hpk]
    all_goals
      obtain ⟨m, hf, hc⟩ := ih (by
        obtain ⟨m, hm, hmo⟩ := h
        rcases List.mem_cons.mp hm with rfl | hm2
        · rw [hpk] at hmo
          exact absurd hmo (by simp)
        · exact ⟨m, hm2, hmo⟩)
    all_goals
      refine ⟨m, ?_, ?_⟩ <;>
        simp [List.find?_cons, hpk, hf, collectUnserializableNodes, hc,
          Except.map]

/-- Helper: an uncaught pickling exception in the first `_validate_catalog`
loop surfaces as the exception of the first entry that is not marked
single-process and pickles with an uncaught error, in catalog order. -/
theorem collectUnserializableDataSets_error (l : List (String × DataSetHandle))
    (h : ∃ p ∈ l, p.2.singleProcess = false ∧ p.2.pickle = .otherError) :
    ∃ q, l.find? (fun p => !p.2.singleProcess &&
        decide (p.2.pickle = PickleOutcome.otherError)) = some q ∧
      collectUnserializableDataSets l = .error q.1 := by
  induction l with
  | nil => simp at h
  | cons p rest ih =>
    obtain ⟨name, d⟩ := p
    by_cases hsp : d.singleProcess
    · obtain ⟨q, hf, hc⟩ := ih (by
        obtain ⟨q, hq, hq1, hq2⟩ := h
        rcases List.mem_cons.mp hq with rfl | hq3
        · rw [hsp] at hq1
          exact absurd hq1 (by simp)
        · exact ⟨q, hq3, hq1, hq2⟩)
      refine ⟨q, ?_, ?_⟩
      · simp [List.find?_cons, hsp, hf]
      · simp [collectUnserializableDataSets, hsp, hc, Except.map]
    · cases hpk : d.pickle
      case neg.otherError =>
        refine ⟨(name, d), ?_, ?_⟩
        · simp [List.find?_cons, hsp, hpk]
        · simp [collectUnserializableDataSets, hsp, hpk]
      all_goals
        obtain ⟨q, hf, hc⟩ := ih (by
          obtain ⟨q, hq, hq1, hq2⟩ := h
          rcases List.mem_cons.mp hq with rfl | hq3
          · rw [hpk] at hq2
            exact absurd hq2 (by simp)
          · exact ⟨q, hq3, hq1, hq2⟩)
      all_goals
        refine ⟨q, ?_, ?_⟩ <;>
          simp [List.find?_cons, hsp, hpk, hf,
            collectUnserializableDataSets, hc, Except.map]

/-- C10: the transferability probes catch only `AttributeError` and
`PicklingError`.  A node whose pickling raises any other exception type
makes `_validate_nodes` propagate that exception (from the first such node)
instead of the aggregated report; a catalog handle that is not marked
single-process and whose pickling raises any other exception type makes
`_validate_catalog` propagate that exception (from the first such entry)
instead of the aggregated report. -/
theorem pickling_probe_catches_only_attr_and_pickling (ns : List Node)
    (c : Catalog) (P : Pipeline) :
    ((∃ n ∈ ns, n.pickle = .otherError) →
      ∃ m, ns.find? (fun x => decide (x.pickle = PickleOutcome.otherError))
          = some m ∧
        validateNodes ns = .error (.propagated m)) ∧
    ((∃ p ∈ c.dataSets, p.2.singleProcess = false ∧
        p.2.pickle = .otherError) →
      ∃ q, c.dataSets.find? (fun p => !p.2.singleProcess &&
          decide (p.2.pickle = PickleOutcome.otherError)) = some q ∧
        validateCatalog c P = .error (.propagated q.1)) := by
  constructor
  · intro h
    obtain ⟨m, hf, hc⟩ := collectUnserializableNodes_error ns h
    exact ⟨m, hf, by rw [validateNodes, hc]⟩
  · intro h
    obtain ⟨q, hf, hc⟩ := collectUnserializableDataSets_error c.dataSets h
    exact ⟨q, hf, by rw [validateCatalog, hc]⟩

/-- Witness for `pickling_probe_catches_only_attr_and_pickling` at a node
list and catalog each holding an entry whose pickling raises `TypeError`. -/
theorem pickling_probe_catches_only_attr_and_pickling_witness :
    (∃ n ∈ [(⟨7, [], [], .otherError⟩ : Node)],
        n.pickle = PickleOutcome.otherError) ∧
    (∃ m, [(⟨7, [], [], .otherError⟩ : Node)].find?
        (fun x => decide (x.pickle = PickleOutcome.otherError)) = some m ∧
      validateNodes [⟨7, [], [], .otherError⟩]
        = .error (.propagated m)) :=
  ⟨by decide, (pickling_probe_catches_only_attr_and_pickling
    [⟨7, [], [], .otherError⟩] ⟨[]⟩ ⟨[], fun _ => [], [], []⟩).1
    ⟨⟨7, [], [], .otherError⟩, by simp, rfl⟩⟩

/-- C8: with every pickling outcome caught by the validators, each
pre-flight check that finds offending items fails exactly once with a
single error naming all offending items of that check, sorted (nodes by
their order, dataset names lexicographically), not one error per item; and
a validation failure in `_run` happens before any node is dispatched. -/
theorem validation_aggregated_and_fail_fast (ns : List Node) (c : Catalog)
    (P : Pipeline)
    (hn : ∀ n ∈ ns, n.pickle ≠ .otherError)
    (hc : ∀ p ∈ c.dataSets, p.2.pickle ≠ .otherError) :
    ((∃ n ∈ ns, nodeOffending n = true) →
      ∃ L, validateNodes ns = .error (.aggregated L) ∧
        L.Sorted (fun a b => a.id ≤ b.id) ∧
        ∀ x, x ∈ L ↔ x ∈ ns.filter nodeOffending) ∧
    ((∃ p ∈ c.dataSets, dsOffending p = true) →
      ∃ L, validateCatalog c P = .error (.multiprocessing L) ∧
        L.Sorted (· ≤ ·) ∧
        ∀ s, s ∈ L ↔ s ∈ (c.dataSets.filter dsOffending).map Prod.fst) ∧
    ((∀ p ∈ c.dataSets, dsOffending p = false) →
      (∃ p ∈ c.dataSets, memOffending P p = true) →
      ∃ L, validateCatalog c P = .error (.memory L) ∧
        L.Sorted (· ≤ ·) ∧
        ∀ s, s ∈ L ↔ s ∈ (c.dataSets.filter (memOffending P)).map Prod.fst) ∧
    (∀ fails pick fuel e, parallelRun P c fails pick fuel = Except.error e →
      dispatchedNodes (parallelRun P c fails pick fuel) = ∅) := by
  haveI : IsTotal Node (fun a b => a.id ≤ b.id) :=
    ⟨fun a b => Nat.le_total a.id b.id⟩
  haveI : IsTrans Node (fun a b => a.id ≤ b.id) :=
    ⟨fun a b c h1 h2 => Nat.le_trans h1 h2⟩
  refine ⟨?_, ?_, ?_, ?_⟩
  · rintro ⟨n, hnmem, hno⟩
    have hfil : n ∈ ns.filter nodeOffending := List.mem_filter.mpr ⟨hnmem, hno⟩
    have hfalse : (ns.filter nodeOffending).isEmpty = false := by
      rw [← Bool.not_eq_true, List.isEmpty_iff]
      intro hh
      rw [hh] at hfil
      exact absurd hfil (List.not_mem_nil n)
    refine ⟨(ns.filter nodeOffending).insertionSort (fun a b => a.id ≤ b.id),
      ?_, List.sorted_insertionSort _ _,
      fun x => (List.perm_insertionSort _ _).mem_iff⟩
    rw [validateNodes, collectUnserializableNodes_eq ns hn]
    simp only [hfalse, Bool.false_eq_true, if_false]
  · rintro ⟨p, hpmem, hpo⟩
    have hfil : p ∈ c.dataSets.filter dsOffending :=
      List.mem_filter.mpr ⟨hpmem, hpo⟩
    have hfalse :
        ((c.dataSets.filter dsOffending).map Prod.fst).isEmpty = false := by
      rw [← Bool.not_eq_true, List.isEmpty_iff, List.map_eq_nil_iff]
      intro hh
      rw [hh] at hfil
      exact absurd hfil (List.not_mem_nil p)
    refine ⟨((c.dataSets.filter dsOffending).map Prod.fst).insertionSort
      (· ≤ ·), ?_, List.sorted_insertionSort _ _,
      fun s => (List.perm_insertionSort _ _).mem_iff⟩
    rw [validateCatalog, collectUnserializableDataSets_eq c.dataSets hc]
    simp only [hfalse, Bool.false_eq_true, if_false]
  · intro hall
    rintro ⟨p, hpmem, hpo⟩
    have hfil : c.dataSets.filter dsOffending = [] :=
      List.filter_eq_nil_iff.mpr (fun q hq => by simp [hall q hq])
    have hfilm : p ∈ c.dataSets.filter (memOffending P) :=
      List.mem_filter.mpr ⟨hpmem, hpo⟩
    have hfalse :
        ((c.dataSets.filter (memOffending P)).map Prod.fst).isEmpty
          = false := by
      rw [← Bool.not_eq_true, List.isEmpty_iff, List.map_eq_nil_iff]
      intro hh
      rw [hh] at hfilm
      exact absurd hfilm (List.not_mem_nil p)
    refine ⟨((c.dataSets.filter (memOffending P)).map Prod.fst).insertionSort
      (· ≤ ·), ?_, List.sorted_insertionSort _ _,
      fun s => (List.perm_insertionSort _ _).mem_iff⟩
    rw [validateCatalog, collectUnserializableDataSets_eq c.dataSets hc, hfil]
    simp only [List.map_nil, List.isEmpty_nil, if_true, hfalse,
      Bool.false_eq_true, if_false]
  · intro fails pick fuel e h
    rw [h]
    rfl

/-- Witness for `validation_aggregated_and_fail_fast`: three
non-serializable nodes yield one aggregated error naming all three. -/
theorem validation_aggregated_and_fail_fast_witness :
    (∃ n ∈ [(⟨3, [], [], .attrError⟩ : Node), ⟨1, [], [], .picklingError⟩,
        ⟨2, [], [], .attrError⟩], nodeOffending n = true) ∧
    (∃ L, validateNodes [(⟨3, [], [], .attrError⟩ : Node),
        ⟨1, [], [], .picklingError⟩, ⟨2, [], [], .attrError⟩]
        = .error (.aggregated L) ∧
      L.Sorted (fun a b => a.id ≤ b.id) ∧
      ∀ x, x ∈ L ↔ x ∈ [(⟨3, [], [], .attrError⟩ : Node),
        ⟨1, [], [], .picklingError⟩,
        ⟨2, [], [], .attrError⟩].filter nodeOffending) :=
  ⟨by decide, (validation_aggregated_and_fail_fast
    [⟨3, [], [], .attrError⟩, ⟨1, [], [], .picklingError⟩,
      ⟨2, [], [], .attrError⟩] ⟨[]⟩ ⟨[], fun _ => [], [], []⟩
    (by decide) (by decide)).1 (by decide)⟩

/-- Helper: completion processing never touches `todo_nodes`, `futures`,
the dispatch trace, the last ready set or the last wait result, whether it
returns normally or re-raises a node exception. -/
theorem processCompleted_frame (P : Pipeline) (fails : Node → Bool) :
    ∀ (l : List Node) (st : SchedState),
      (outState (processCompleted P fails l st)).todo = st.todo ∧
      (outState (processCompleted P fails l st)).futures = st.futures ∧
      (outState (processCompleted P fails l st)).dispatches = st.dispatches ∧
      (outState (processCompleted P fails l st)).lastReady = st.lastReady ∧
      (outState (processCompleted P fails l st)).lastDone = st.lastDone := by
  intro l
  induction l with
  | nil => intro st; exact ⟨rfl, rfl, rfl, rfl, rfl⟩
  | cons n rest ih =>
    intro st
    by_cases hf : fails n
    · simp [processCompleted, hf, outState]
    · simpa [processCompleted, hf, outState] using ih _

/-- Helper: the dispatch step only adds dispatch events whose nodes had all
dependencies completed. -/
theorem dispatch_preserves_safe (P : Pipeline) (st : SchedState)
    (h : DispatchSafe P st.dispatches) :
    DispatchSafe P (dispatch P st).dispatches := by
  intro e he n hn d hd
  rcases List.mem_append.mp he with he1 | he2
  · exact h e he1 n hn d hd
  · rcases List.mem_singleton.mp he2 with rfl
    exact (Finset.mem_filter.mp hn).2 d hd

/-- Helper: one unfolding of the scheduler loop. -/
theorem runLoop_succ (P : Pipeline) (fails : Node → Bool)
    (pick : SchedState → List Node) (f : Nat) (st : SchedState) :
    runLoop P fails pick (f + 1) st =
      if (dispatch P st).futures = ∅ then
        (if (dispatch P st).todo = ∅ then .ok (dispatch P st)
         else .deadlock (debugData (dispatch P st)) (dispatch P st))
      else
        match processCompleted P fails (pick (dispatch P st))
          { dispatch P st with
            futures := (dispatch P st).futures \
              (pick (dispatch P st)).toFinset
            lastDone := some (pick (dispatch P st)).toFinset } with
        | .error (n, stf) => .nodeFailure n stf
        | .ok st3 => runLoop P fails pick f st3 := rfl

/-- Helper: the scheduler loop preserves dispatch safety of the trace, for
every failure pattern and every completion oracle. -/
theorem runLoop_safe (P : Pipeline) (fails : Node → Bool)
    (pick : SchedState → List Node) :
    ∀ (fuel : Nat) (st : SchedState), DispatchSafe P st.dispatches →
      DispatchSafe P (runLoop P fails pick fuel st).state.dispatches := by
  intro fuel
  induction fuel with
  | zero => intro st h; exact h
  | succ f ih =>
    intro st h
    have h1 : DispatchSafe P (dispatch P st).dispatches :=
      dispatch_preserves_safe P st h
    rw [runLoop_succ]
    by_cases hfut : (dispatch P st).futures = ∅
    · rw [if_pos hfut]
      by_cases ht : (dispatch P st).todo = ∅
      · rw [if_pos ht]; exact h1
      · rw [if_neg ht]; exact h1
    · rw [if_neg hfut]
      have hframe := processCompleted_frame P fails
        (pick (dispatch P st))
        { dispatch P st with
          futures := (dispatch P st).futures \
            (pick (dispatch P st)).toFinset
          lastDone := some (pick (dispatch P st)).toFinset }
      cases hp : processCompleted P fails
        (pick (dispatch P st))
        { dispatch P st with
          futures := (dispatch P st).futures \
            (pick (dispatch P st)).toFinset
          lastDone := some (pick (dispatch P st)).toFinset } with
      | error p =>
        obtain ⟨n, stf⟩ := p
        rw [hp] at hframe
        have hd := hframe.2.2.1
        simp only [outState] at hd
        show DispatchSafe P stf.dispatches
        rw [hd]
        exact h1
      | ok st3 =>
        rw [hp] at hframe
        have hd := hframe.2.2.1
        simp only [outState] at hd
        show DispatchSafe P (runLoop P fails pick f st3).state.dispatches
        exact ih st3 (by rw [hd]; exact h1)

/-- C1: topological safety.  For every dependency graph, every failure
pattern and every completion oracle, whenever the scheduler loop of
`ParallelRunner._run` dispatches a node (moves it out of `todo_nodes` and
submits it to the pool), every node in that node's dependency set is already
a member of `done_nodes` at the moment of dispatch. -/
theorem topological_safety (P : Pipeline) (fails : Node → Bool)
    (pick : SchedState → List Node) (fuel : Nat) :
    DispatchSafe P (runSched P fails pick fuel).state.dispatches := by
  apply runLoop_safe
  intro e he
  exact absurd he (List.not_mem_nil e)

/-- Helper: `todo_nodes` after dispatch. -/
theorem dispatch_todo (P : Pipeline) (st : SchedState) :
    (dispatch P st).todo = st.todo \ readyNodes P st := rfl

/-- Helper: `futures` after dispatch. -/
theorem dispatch_futures (P : Pipeline) (st : SchedState) :
    (dispatch P st).futures = st.futures ∪ readyNodes P st := rfl

/-- Helper: `done_nodes` is untouched by dispatch. -/
theorem dispatch_doneSet (P : Pipeline) (st : SchedState) :
    (dispatch P st).doneSet = st.doneSet := rfl

/-- Helper: the dispatch trace grows by the submitted batch. -/
theorem dispatch_dispatches (P : Pipeline) (st : SchedState) :
    (dispatch P st).dispatches =
      st.dispatches ++ [(readyNodes P st, st.doneSet)] := rfl

/-- Helper: submitted nodes of a concatenated dispatch trace. -/
theorem dispatchedSet_append (a b : List (Finset Node × Finset Node)) :
    dispatchedSet (a ++ b) = dispatchedSet a ∪ dispatchedSet b := by
  induction a with
  | nil => simp [dispatchedSet]
  | cons e a ih =>
    simp [dispatchedSet, List.foldr_cons] at ih ⊢
    rw [ih]

/-- Helper: submission count of a concatenated dispatch trace. -/
theorem dispatchedCount_append (a b : List (Finset Node × Finset Node)) :
    dispatchedCount (a ++ b) = dispatchedCount a + dispatchedCount b := by
  simp [dispatchedCount]

/-- Helper: the scheduler invariant holds for the initial run state. -/
theorem schedInv_init (P : Pipeline) : SchedInv P (initState P) := by
  constructor <;>
    simp [initState, SchedState.doneSet, dispatchedSet, dispatchedCount]

/-- Helper: the dispatch step preserves the scheduler invariant. -/
theorem schedInv_dispatch (P : Pipeline) (st : SchedState)
    (h : SchedInv P st) : SchedInv P (dispatch P st) := by
  have hsub : readyNodes P st ⊆ st.todo := Finset.filter_subset _ _
  have hdisjrf : Disjoint (readyNodes P st) st.futures :=
    h.disj_tf.mono_left hsub
  have hdisjrd : Disjoint (readyNodes P st) st.doneSet :=
    h.disj_td.mono_left hsub
  have hkey : st.todo \ readyNodes P st ∪ (st.futures ∪ readyNodes P st)
      = st.todo ∪ st.futures := by
    rw [Finset.union_comm st.futures (readyNodes P st),
      ← Finset.union_assoc,
      Finset.sdiff_union_of_subset hsub]
  constructor
  · rw [dispatch_todo, dispatch_futures]
    exact Finset.disjoint_union_right.mpr
      ⟨h.disj_tf.mono_left (Finset.sdiff_subset),
        Finset.sdiff_disjoint⟩
  · rw [dispatch_todo, dispatch_doneSet]
    exact h.disj_td.mono_left (Finset.sdiff_subset)
  · rw [dispatch_futures, dispatch_doneSet]
    exact Finset.disjoint_union_left.mpr ⟨h.disj_fd, hdisjrd⟩
  · rw [dispatch_todo, dispatch_futures, dispatch_doneSet, hkey, h.cover]
  · exact h.nodup
  · rw [dispatch_dispatches, dispatchedSet_append, h.dispSet,
      dispatch_futures, dispatch_doneSet]
    have h1 : dispatchedSet [(readyNodes P st, st.doneSet)]
        = readyNodes P st := by
      simp [dispatchedSet]
    rw [h1, Finset.union_assoc,
      Finset.union_comm st.doneSet (readyNodes P st),
      ← Finset.union_assoc]
  · rw [dispatch_dispatches, dispatchedCount_append, h.dispCount,
      dispatch_futures, dispatch_doneSet]
    have h1 : dispatchedCount [(readyNodes P st, st.doneSet)]
        = (readyNodes P st).card := by
      simp [dispatchedCount]
    rw [h1, Finset.card_union_of_disjoint hdisjrf.symm]
    omega

/-- Helper: when no node execution raises, completion processing returns
normally and appends the completed batch to `done_nodes` in order. -/
theorem processCompleted_ok_of_no_failure (P : Pipeline)
    (fails : Node → Bool) (hf : ∀ n, fails n = false) :
    ∀ (l : List Node) (st : SchedState),
      ∃ st3, processCompleted P fails l st = .ok st3 ∧
        st3.doneList = st.doneList ++ l := by
  intro l
  induction l with
  | nil => intro st; exact ⟨st, rfl, by simp⟩
  | cons n rest ih =>
    intro st
    obtain ⟨st3, hp, hl⟩ := ih
      { st with
        doneList := st.doneList ++ [n]
        lc := (nodeCompletionBook P st.lc n).1
        releases := st.releases ++ (nodeCompletionBook P st.lc n).2 }
    refine ⟨st3, ?_, ?_⟩
    · rw [processCompleted, hf n]
      simp only [Bool.false_eq_true, if_false]
      exact hp
    · rw [hl]
      simp

/-- Helper: one completion round preserves the scheduler invariant and
strictly decreases the number of pending-or-in-flight nodes. -/
theorem schedInv_complete (P : Pipeline) (st1 : SchedState) (L : List Node)
    (h : SchedInv P st1) (hne : L ≠ []) (hnd : L.Nodup)
    (hsub : ∀ n ∈ L, n ∈ st1.futures) (st3 : SchedState)
    (h3td : st3.todo = st1.todo)
    (h3f : st3.futures = st1.futures \ L.toFinset)
    (h3d : st3.doneList = st1.doneList ++ L)
    (h3disp : st3.dispatches = st1.dispatches) :
    SchedInv P st3 ∧
      st3.todo.card + st3.futures.card < st1.todo.card + st1.futures.card := by
  have hLsub : L.toFinset ⊆ st1.futures := by
    intro x hx
    exact hsub x (List.mem_toFinset.mp hx)
  have hdone3 : st3.doneSet = st1.doneSet ∪ L.toFinset := by
    rw [SchedState.doneSet, h3d, List.toFinset_append]
    rfl
  have hdisjLd : Disjoint L.toFinset st1.doneSet :=
    h.disj_fd.mono_left hLsub
  have hcard : L.toFinset.card ≤ st1.futures.card :=
    Finset.card_le_card hLsub
  have hpos : 0 < L.toFinset.card := by
    rcases L with _ | ⟨x, xs⟩
    · exact absurd rfl hne
    · exact Finset.card_pos.mpr ⟨x, by simp⟩
  have hkey : st1.futures \ L.toFinset ∪ (st1.doneSet ∪ L.toFinset)
      = st1.futures ∪ st1.doneSet := by
    rw [Finset.union_comm st1.doneSet L.toFinset, ← Finset.union_assoc,
      Finset.sdiff_union_of_subset hLsub]
  refine ⟨?_, ?_⟩
  · constructor
    · rw [h3td, h3f]
      exact h.disj_tf.mono_right (Finset.sdiff_subset)
    · rw [h3td, hdone3]
      exact Finset.disjoint_union_right.mpr
        ⟨h.disj_td, h.disj_tf.mono_right hLsub⟩
    · rw [h3f, hdone3]
      exact Finset.disjoint_union_right.mpr
        ⟨h.disj_fd.mono_left (Finset.sdiff_subset), Finset.sdiff_disjoint⟩
    · rw [h3td, h3f, hdone3, Finset.union_assoc, hkey, ← Finset.union_assoc,
        h.cover]
    · rw [h3d, List.nodup_append]
      refine ⟨h.nodup, hnd, ?_⟩
      intro x hx1 hx2
      have hxd : x ∈ st1.doneSet := List.mem_toFinset.mpr hx1
      have hxf : x ∈ st1.futures := hsub x hx2
      exact Finset.disjoint_left.mp h.disj_fd hxf hxd
    · rw [h3disp, h.dispSet, h3f, hdone3, hkey]
    · rw [h3disp, h.dispCount, h3f, hdone3,
        Finset.card_sdiff hLsub,
        Finset.card_union_of_disjoint hdisjLd.symm]
      omega
  · rw [h3td, h3f, Finset.card_sdiff hLsub]
    omega

/-- Helper: for an acyclic graph the deadlock branch is unreachable — if,
after a dispatch from an invariant-satisfying state, no futures are in
flight, then no work remains either. -/
theorem no_deadlock_of_acyclic (P : Pipeline) (rank : Node → Nat)
    (hacy : AcyclicPipeline P rank) (st : SchedState) (h : SchedInv P st)
    (hfut : (dispatch P st).futures = ∅) : (dispatch P st).todo = ∅ := by
  rw [dispatch_futures] at hfut
  have hready : readyNodes P st = ∅ := by
    have := Finset.union_eq_empty.mp hfut
    exact this.2
  have hfut0 : st.futures = ∅ := (Finset.union_eq_empty.mp hfut).1
  rw [dispatch_todo, hready, Finset.sdiff_empty]
  by_contra htodo
  obtain ⟨t, htmem, htmin⟩ :=
    Finset.exists_min_image st.todo rank (Finset.nonempty_iff_ne_empty.mpr htodo)
  have htready : t ∉ readyNodes P st := by
    rw [hready]
    exact Finset.not_mem_empty t
  have hdep : ¬ ∀ d ∈ P.deps t, d ∈ st.doneSet := by
    intro hall
    exact htready (Finset.mem_filter.mpr ⟨htmem, hall⟩)
  push_neg at hdep
  obtain ⟨d, hd, hdnot⟩ := hdep
  have htnode : t ∈ P.nodes := by
    have : t ∈ P.nodes.toFinset := by
      rw [← h.cover]
      exact Finset.mem_union_left _ (Finset.mem_union_left _ htmem)
    exact List.mem_toFinset.mp this
  have hdnode : d ∈ P.nodes.toFinset :=
    List.mem_toFinset.mpr (hacy.1 t htnode d hd)
  have hdtodo : d ∈ st.todo := by
    rw [← h.cover] at hdnode
    rcases Finset.mem_union.mp hdnode with h1 | h1
    · rcases Finset.mem_union.mp h1 with h2 | h2
      · exact h2
      · rw [hfut0] at h2
        exact absurd h2 (Finset.not_mem_empty d)
    · exact absurd h1 hdnot
  have := htmin d hdtodo
  have := hacy.2 t htnode d hd
  omega

/-- Helper: dispatch conserves the number of pending-or-in-flight nodes. -/
theorem dispatch_card (P : Pipeline) (st : SchedState) (h : SchedInv P st) :
    (dispatch P st).todo.card + (dispatch P st).futures.card
      = st.todo.card + st.futures.card := by
  have hsub : readyNodes P st ⊆ st.todo := Finset.filter_subset _ _
  have hdisjrf : Disjoint (readyNodes P st) st.futures :=
    h.disj_tf.mono_left hsub
  have hle : (readyNodes P st).card ≤ st.todo.card :=
    Finset.card_le_card hsub
  rw [dispatch_todo, dispatch_futures, Finset.card_sdiff hsub,
    Finset.card_union_of_disjoint hdisjrf.symm]
  omega

/-- Helper: for an acyclic graph, a faithful oracle, no node failures and
enough fuel, the scheduler loop from an invariant state terminates normally
with nothing pending and nothing in flight. -/
theorem runLoop_ok (P : Pipeline) (rank : Node → Nat) (fails : Node → Bool)
    (pick : SchedState → List Node)
    (hacy : AcyclicPipeline P rank) (hpick : ValidPick P pick)
    (hf : ∀ n, fails n = false) :
    ∀ (fuel : Nat) (st : SchedState), SchedInv P st →
      st.todo.card + st.futures.card < fuel →
      ∃ stf, runLoop P fails pick fuel st = .ok stf ∧ SchedInv P stf ∧
        stf.todo = ∅ ∧ stf.futures = ∅ := by
  intro fuel
  induction fuel with
  | zero => intro st _ hlt; omega
  | succ f ih =>
    intro st hinv hlt
    have hinv1 : SchedInv P (dispatch P st) := schedInv_dispatch P st hinv
    rw [runLoop_succ]
    by_cases hfut : (dispatch P st).futures = ∅
    · have htodo : (dispatch P st).todo = ∅ :=
        no_deadlock_of_acyclic P rank hacy st hinv hfut
      rw [if_pos hfut, if_pos htodo]
      exact ⟨dispatch P st, rfl, hinv1, htodo, hfut⟩
    · rw [if_neg hfut]
      have hfsub : (dispatch P st).futures ⊆ P.nodes.toFinset := by
        intro x hx
        rw [← hinv1.cover]
        exact Finset.mem_union_left _ (Finset.mem_union_right _ hx)
      obtain ⟨hpne, hpnd, hpsub⟩ := hpick (dispatch P st) hfsub
        (Finset.nonempty_iff_ne_empty.mpr hfut)
      obtain ⟨st3, hp3, hdl⟩ := processCompleted_ok_of_no_failure P fails hf
        (pick (dispatch P st))
        { dispatch P st with
          futures := (dispatch P st).futures \
            (pick (dispatch P st)).toFinset
          lastDone := some (pick (dispatch P st)).toFinset }
      have hframe := processCompleted_frame P fails
        (pick (dispatch P st))
        { dispatch P st with
          futures := (dispatch P st).futures \
            (pick (dispatch P st)).toFinset
          lastDone := some (pick (dispatch P st)).toFinset }
      rw [hp3] at hframe
      simp only [outState] at hframe
      obtain ⟨hinv3, hm3⟩ := schedInv_complete P (dispatch P st)
        (pick (dispatch P st)) hinv1 hpne hpnd hpsub st3
        hframe.1 hframe.2.1 hdl hframe.2.2.1
      have hm : st3.todo.card + st3.futures.card < f := by
        have hc := dispatch_card P st hinv
        omega
      obtain ⟨stf, heq, hinvf, htf, hff⟩ := ih st3 hinv3 hm
      refine ⟨stf, ?_, hinvf, htf, hff⟩
      rw [hp3]
      exact heq

/-- Helper: `pickAll` is a faithful completion oracle for a duplicate-free
pipeline. -/
theorem validPick_pickAll (P : Pipeline) (hnd : P.nodes.Nodup) :
    ValidPick P (pickAll P) := by
  intro st hsub hne
  refine ⟨?_, List.Nodup.filter _ hnd, ?_⟩
  · obtain ⟨x, hx⟩ := hne
    have hxn : x ∈ P.nodes := List.mem_toFinset.mp (hsub hx)
    intro hempty
    have hmem : x ∈ P.nodes.filter (fun n => decide (n ∈ st.futures)) :=
      List.mem_filter.mpr ⟨hxn, by simp [hx]⟩
    rw [pickAll] at hempty
    rw [hempty] at hmem
    exact absurd hmem (List.not_mem_nil x)
  · intro n hn
    have hm := List.mem_filter.mp hn
    simpa using hm.2

/-- C2: completeness and termination.  For every valid acyclic dependency
graph, every faithful completion oracle and no node failures, the scheduler
loop of `ParallelRunner._run` terminates normally given fuel beyond the node
count, every pipeline node ends in `done_nodes` exactly once (the done list
is duplicate-free and covers exactly the pipeline), and each node is
submitted to the pool exactly once (the dispatch batches cover exactly the
pipeline with total submission count equal to the number of distinct
nodes). -/
theorem completeness_and_termination (P : Pipeline) (rank : Node → Nat)
    (fails : Node → Bool) (pick : SchedState → List Node) (fuel : Nat)
    (hacy : AcyclicPipeline P rank) (hpick : ValidPick P pick)
    (hf : ∀ n, fails n = false) (hfuel : P.nodes.length < fuel) :
    ∃ stf, runSched P fails pick fuel = .ok stf ∧
      stf.doneList.Nodup ∧ stf.doneList.toFinset = P.nodes.toFinset ∧
      dispatchedSet stf.dispatches = P.nodes.toFinset ∧
      dispatchedCount stf.dispatches = P.nodes.toFinset.card := by
  have hinit : SchedInv P (initState P) := schedInv_init P
  have hm : (initState P).todo.card + (initState P).futures.card < fuel := by
    have h2 : P.nodes.toFinset.card ≤ P.nodes.length :=
      P.nodes.toFinset_card_le
    simp only [initState, Finset.card_empty]
    omega
  obtain ⟨stf, heq, hinvf, ht, hfu⟩ :=
    runLoop_ok P rank fails pick hacy hpick hf fuel (initState P) hinit hm
  have hdone : stf.doneSet = P.nodes.toFinset := by
    have hc := hinvf.cover
    rw [ht, hfu] at hc
    simpa using hc
  refine ⟨stf, heq, hinvf.nodup, hdone, ?_, ?_⟩
  · rw [hinvf.dispSet, hfu, hdone]
    simp
  · rw [hinvf.dispCount, hfu, hdone]
    simp

/-- Witness for `completeness_and_termination` on the concrete two-node
pipeline with the complete-everything oracle. -/
theorem completeness_and_termination_witness :
    AcyclicPipeline samplePipeline Node.id ∧
    (∃ stf, runSched samplePipeline (fun _ => false)
        (pickAll samplePipeline) 3 = .ok stf ∧
      stf.doneList.Nodup ∧
      stf.doneList.toFinset = samplePipeline.nodes.toFinset ∧
      dispatchedSet stf.dispatches = samplePipeline.nodes.toFinset ∧
      dispatchedCount stf.dispatches = samplePipeline.nodes.toFinset.card) :=
  ⟨by unfold AcyclicPipeline; decide,
    completeness_and_termination samplePipeline Node.id
    (fun _ => false) (pickAll samplePipeline) 3
    (by unfold AcyclicPipeline; decide)
    (validPick_pickAll samplePipeline (by decide)) (fun _ => rfl)
    (by decide)⟩

/-- C4: deadlock detection and unreachability.  If after a dispatch no
futures are outstanding while `todo_nodes` is non-empty (so no node was
dispatchable), the loop raises the `RuntimeError` carrying the `debug_data`
dump of `todo_nodes`, `done_nodes`, the last ready set and the last
completed futures, instead of hanging; and for every valid acyclic graph
with a faithful oracle and no node failures this branch is unreachable. -/
theorem deadlock_detection_and_unreachability :
    (∀ (P : Pipeline) (fails : Node → Bool) (pick : SchedState → List Node)
        (fuel : Nat) (st : SchedState),
      (dispatch P st).futures = ∅ → (dispatch P st).todo ≠ ∅ →
        runLoop P fails pick (fuel + 1) st =
          .deadlock ⟨(dispatch P st).todo, (dispatch P st).doneSet,
            (dispatch P st).lastReady, (dispatch P st).lastDone⟩
            (dispatch P st)) ∧
    (∀ (P : Pipeline) (rank : Node → Nat) (fails : Node → Bool)
        (pick : SchedState → List Node) (fuel : Nat),
      AcyclicPipeline P rank → ValidPick P pick → (∀ n, fails n = false) →
      P.nodes.length < fuel →
      ∀ (d : DebugData) (st' : SchedState),
        runSched P fails pick fuel ≠ .deadlock d st') := by
  constructor
  · intro P fails pick fuel st h1 h2
    rw [runLoop_succ, if_pos h1, if_neg h2]
    rfl
  · intro P rank fails pick fuel hacy hpick hf hfuel d st' hcon
    have hinit : SchedInv P (initState P) := schedInv_init P
    have hm : (initState P).todo.card + (initState P).futures.card
        < fuel := by
      have h2 : P.nodes.toFinset.card ≤ P.nodes.length :=
        P.nodes.toFinset_card_le
      simp only [initState, Finset.card_empty]
      omega
    obtain ⟨stf, heq, _⟩ :=
      runLoop_ok P rank fails pick hacy hpick hf fuel (initState P) hinit hm
    rw [runSched] at hcon
    rw [heq] at hcon
    exact RunOutcome.noConfusion hcon

/-- Witness for `deadlock_detection_and_unreachability`: the cyclic
two-node pipeline deadlocks on the very first iteration, raising with the
full state dump. -/
theorem deadlock_detection_and_unreachability_witness :
    ((dispatch cyclicPipeline (initState cyclicPipeline)).futures = ∅ ∧
      (dispatch cyclicPipeline (initState cyclicPipeline)).todo ≠ ∅) ∧
    runLoop cyclicPipeline (fun _ => false) (pickAll cyclicPipeline) 1
        (initState cyclicPipeline) =
      .deadlock ⟨(dispatch cyclicPipeline (initState cyclicPipeline)).todo,
        (dispatch cyclicPipeline (initState cyclicPipeline)).doneSet,
        (dispatch cyclicPipeline (initState cyclicPipeline)).lastReady,
        (dispatch cyclicPipeline (initState cyclicPipeline)).lastDone⟩
        (dispatch cyclicPipeline (initState cyclicPipeline)) :=
  ⟨⟨by decide, by decide⟩,
    deadlock_detection_and_unreachability.1 cyclicPipeline (fun _ => false)
      (pickAll cyclicPipeline) 0 (initState cyclicPipeline)
      (by decide) (by decide)⟩

/-- Helper: pointwise load-count effect of one input-release iteration. -/
theorem releaseInputStep_lc (ext : List String)
    (s : (String → Int) × List String) (a ds : String) :
    (releaseInputStep ext s a).1 ds =
      if ds = a then s.1 ds - 1 else s.1 ds := by
  rw [releaseInputStep]
  by_cases hc : s.1 a - 1 < 1 ∧ a ∉ ext
  · rw [if_pos hc]
    show Function.update s.1 a (s.1 a - 1) ds = _
    rw [Function.update_apply]
    by_cases hda : ds = a <;> simp [hda]
  · rw [if_neg hc]
    show Function.update s.1 a (s.1 a - 1) ds = _
    rw [Function.update_apply]
    by_cases hda : ds = a <;> simp [hda]

/-- Helper: release effect of one input-release iteration. -/
theorem releaseInputStep_rel (ext : List String)
    (s : (String → Int) × List String) (a : String) :
    (releaseInputStep ext s a).2 =
      if s.1 a - 1 < 1 ∧ a ∉ ext then s.2 ++ [a] else s.2 := by
  rw [releaseInputStep]
  by_cases hc : s.1 a - 1 < 1 ∧ a ∉ ext
  · rw [if_pos hc, if_pos hc]
  · rw [if_neg hc, if_neg hc]

/-- Helper: the input loop decrements the load count of `ds` by the number
of times the node lists `ds` as an input. -/
theorem inputsFold_lc (ext : List String) (ds : String) :
    ∀ (ins : List String) (s : (String → Int) × List String),
      (ins.foldl (releaseInputStep ext) s).1 ds = s.1 ds - ins.count ds := by
  intro ins
  induction ins with
  | nil => intro s; simp
  | cons a ins ih =>
    intro s
    rw [List.foldl_cons, ih, releaseInputStep_lc]
    by_cases hda : ds = a
    · subst hda
      rw [if_pos rfl, List.count_cons_self]
      push_cast
      ring
    · rw [if_neg hda, List.count_cons_of_ne (by simpa using hda)]

/-- Helper: when `ds` is a run-level external input, the input loop never
releases it. -/
theorem inputsFold_count_ext (ext : List String) (ds : String)
    (hext : ds ∈ ext) :
    ∀ (ins : List String) (s : (String → Int) × List String),
      (ins.foldl (releaseInputStep ext) s).2.count ds = s.2.count ds := by
  intro ins
  induction ins with
  | nil => intro s; rfl
  | cons a ins ih =>
    intro s
    rw [List.foldl_cons, ih, releaseInputStep_rel]
    by_cases hc : s.1 a - 1 < 1 ∧ a ∉ ext
    · rw [if_pos hc]
      have hne : a ≠ ds := fun h => hc.2 (h ▸ hext)
      rw [List.count_append, List.count_eq_zero.mpr
        (fun hh => hne (List.mem_singleton.mp hh).symm)]
      omega
    · rw [if_neg hc]

/-- Helper: when the node does not list `ds` as an input, the input loop
never releases `ds`. -/
theorem inputsFold_count_zero (ext : List String) (ds : String) :
    ∀ (ins : List String) (s : (String → Int) × List String),
      ins.count ds = 0 →
      (ins.foldl (releaseInputStep ext) s).2.count ds = s.2.count ds := by
  intro ins
  induction ins with
  | nil => intro s _; rfl
  | cons a ins ih =>
    intro s h
    have hne : a ≠ ds := by
      intro hh
      subst hh
      rw [List.count_cons_self] at h
      omega
    have hins : ins.count ds = 0 := by
      rw [List.count_cons_of_ne (fun hh => hne hh.symm)] at h
      exact h
    rw [List.foldl_cons, ih _ hins, releaseInputStep_rel]
    by_cases hc : s.1 a - 1 < 1 ∧ a ∉ ext
    · rw [if_pos hc]
      rw [List.count_append, List.count_eq_zero.mpr
        (fun hh => hne (List.mem_singleton.mp hh).symm)]
      omega
    · rw [if_neg hc]

/-- Helper: the output loop leaves the load-count table unchanged. -/
theorem outputsFold_lc (ext : List String) :
    ∀ (outs : List String) (s : (String → Int) × List String),
      (outs.foldl (releaseOutputStep ext) s).1 = s.1 := by
  intro outs
  induction outs with
  | nil => intro s; rfl
  | cons a outs ih =>
    intro s
    rw [List.foldl_cons, ih, releaseOutputStep]
    by_cases hc : s.1 a < 1 ∧ a ∉ ext
    · rw [if_pos hc]
    · rw [if_neg hc]

/-- Helper: the output loop releases `ds` once per listed occurrence when
its load count is exhausted and it is not a run-level external output,
otherwise not at all. -/
theorem outputsFold_count (ext : List String) (ds : String) :
    ∀ (outs : List String) (s : (String → Int) × List String),
      (outs.foldl (releaseOutputStep ext) s).2.count ds =
        s.2.count ds +
          (if s.1 ds < 1 ∧ ds ∉ ext then outs.count ds else 0) := by
  intro outs
  induction outs with
  | nil => intro s; simp
  | cons a outs ih =>
    intro s
    rw [List.foldl_cons, ih]
    have hfst : (releaseOutputStep ext s a).1 = s.1 := by
      rw [releaseOutputStep]
      by_cases hc : s.1 a < 1 ∧ a ∉ ext
      · rw [if_pos hc]
      · rw [if_neg hc]
    rw [hfst]
    have hsnd : (releaseOutputStep ext s a).2.count ds =
        s.2.count ds + (if s.1 a < 1 ∧ a ∉ ext ∧ a = ds then 1 else 0) := by
      rw [releaseOutputStep]
      by_cases hc : s.1 a < 1 ∧ a ∉ ext
      · rw [if_pos hc]
        by_cases hda : a = ds
        · subst hda
          simp [List.count_append, hc]
        · rw [List.count_append, List.count_eq_zero.mpr
            (fun hh => hda (List.mem_singleton.mp hh).symm)]
          have h3 : ¬ (s.1 a < 1 ∧ a ∉ ext ∧ a = ds) := fun hh => hda hh.2.2
          simp [h3]
      · rw [if_neg hc]
        have : ¬ (s.1 a < 1 ∧ a ∉ ext ∧ a = ds) := by
          intro hh
          exact hc ⟨hh.1, hh.2.1⟩
        simp [this]
    rw [hsnd]
    by_cases hda : a = ds
    · subst hda
      rw [List.count_cons_self]
      by_cases hc : s.1 a < 1 ∧ a ∉ ext
      · simp [hc]
        omega
      · have h2 : ¬ (s.1 a < 1 ∧ a ∉ ext ∧ a = a) := fun hh => hc ⟨hh.1, hh.2.1⟩
        simp [hc, h2]
    · rw [List.count_cons_of_ne (fun hh => hda hh.symm)]
      have h2 : ¬ (s.1 a < 1 ∧ a ∉ ext ∧ a = ds) := fun hh => hda hh.2.2
      simp [h2]

/-- Helper: release effect of one input-release iteration on the count of a
fixed dataset equal to the processed one. -/
theorem releaseInputStep_count_self (ext : List String)
    (s : (String → Int) × List String) (ds : String) :
    (releaseInputStep ext s ds).2.count ds =
      s.2.count ds + (if s.1 ds - 1 < 1 ∧ ds ∉ ext then 1 else 0) := by
  rw [releaseInputStep_rel]
  by_cases hc : s.1 ds - 1 < 1 ∧ ds ∉ ext
  · rw [if_pos hc, if_pos hc, List.count_append]
    simp
  · rw [if_neg hc, if_neg hc]
    omega

/-- Helper: the input loop releases `ds` exactly once when the node consumes
`ds`, the load count is exactly exhausted by this node, and `ds` is not a
run-level external input; otherwise it does not release `ds` at all.  `A`
is the load remaining for later consumers. -/
theorem inputsFold_count (ext : List String) (ds : String) :
    ∀ (ins : List String) (s : (String → Int) × List String) (A : Nat),
      s.1 ds = ins.count ds + A →
      (ins.foldl (releaseInputStep ext) s).2.count ds =
        s.2.count ds +
          (if 1 ≤ ins.count ds ∧ A = 0 ∧ ds ∉ ext then 1 else 0) := by
  intro ins
  induction ins with
  | nil =>
    intro s A h
    simp
  | cons a ins ih =>
    intro s A h
    rw [List.foldl_cons]
    by_cases hda : ds = a
    · subst hda
      rw [List.count_cons_self] at h
      have hlc : (releaseInputStep ext s ds).1 ds = ins.count ds + A := by
        rw [releaseInputStep_lc, if_pos rfl]
        push_cast at h ⊢
        omega
      rw [ih _ A hlc, releaseInputStep_count_self, List.count_cons_self]
      by_cases hext : ds ∉ ext
      · have e1 : (s.1 ds - 1 < 1 ∧ ds ∉ ext) ↔
            (ins.count ds = 0 ∧ A = 0) := by
          constructor
          · intro hh
            have := hh.1
            push_cast at h
            omega
          · intro hh
            refine ⟨?_, hext⟩
            push_cast at h
            omega
        by_cases hz : ins.count ds = 0 ∧ A = 0
        · rw [if_pos (e1.mpr hz)]
          rw [if_neg (by
            intro hh
            omega)]
          rw [if_pos (by
            refine ⟨by omega, hz.2, hext⟩)]
        · rw [if_neg (fun hh => hz (e1.mp hh))]
          by_cases hA : A = 0
          · have hcpos : 1 ≤ ins.count ds := by
              rcases Nat.eq_zero_or_pos (ins.count ds) with h0 | h0
              · exact absurd ⟨h0, hA⟩ hz
              · exact h0
            rw [if_pos ⟨hcpos, hA, hext⟩, if_pos ⟨by omega, hA, hext⟩]
          · rw [if_neg (fun hh => hA hh.2.1),
              if_neg (fun hh => hA hh.2.1)]
      · rw [if_neg (fun hh => hext hh.2),
          if_neg (fun hh => hext hh.2.2),
          if_neg (fun hh => hext hh.2.2)]
    · have hcc : (a :: ins).count ds = ins.count ds :=
        List.count_cons_of_ne hda _
      rw [hcc] at h
      have hlc : (releaseInputStep ext s a).1 ds = ins.count ds + A := by
        rw [releaseInputStep_lc, if_neg hda]
        exact h
      rw [ih _ A hlc, hcc]
      have hstep : (releaseInputStep ext s a).2.count ds = s.2.count ds := by
        rw [releaseInputStep_rel]
        by_cases hc : s.1 a - 1 < 1 ∧ a ∉ ext
        · rw [if_pos hc, List.count_append,
            List.count_eq_zero.mpr
              (fun hh => hda (List.mem_singleton.mp hh))]
          omega
        · rw [if_neg hc]
      rw [hstep]

/-- Helper: the bookkeeping of one node completion, on the count of `ds`:
the new load count drops by the node's consumption, the input loop releases
`ds` once exactly when this node exhausts the load count (and `ds` is not an
external input), and the output loop releases `ds` per listed occurrence
exactly when nothing remains for later consumers (and `ds` is not an
external output). -/
theorem nodeCompletionBook_count (P : Pipeline) (ds : String) (n : Node)
    (lc : String → Int) (A : Nat) (h : lc ds = n.inputs.count ds + A) :
    (nodeCompletionBook P lc n).1 ds = A ∧
    (nodeCompletionBook P lc n).2.count ds =
      (if 1 ≤ n.inputs.count ds ∧ A = 0 ∧ ds ∉ P.extInputs then 1 else 0) +
      (if A = 0 ∧ ds ∉ P.extOutputs then n.outputs.count ds else 0) := by
  rw [nodeCompletionBook]
  have h1 : (n.inputs.foldl (releaseInputStep P.extInputs) (lc, [])).1 ds
      = A := by
    rw [inputsFold_lc]
    show lc ds - (n.inputs.count ds : Int) = (A : Int)
    omega
  have h2 : (n.inputs.foldl (releaseInputStep P.extInputs) (lc, [])).2.count
      ds = (if 1 ≤ n.inputs.count ds ∧ A = 0 ∧ ds ∉ P.extInputs
        then 1 else 0) := by
    rw [inputsFold_count P.extInputs ds n.inputs (lc, []) A h]
    simp
  constructor
  · rw [outputsFold_lc]
    exact h1
  · rw [outputsFold_count, h2, h1]
    have e1 : ((A : Int) < 1 ∧ ds ∉ P.extOutputs) ↔
        (A = 0 ∧ ds ∉ P.extOutputs) := by
      constructor
      · intro hh
        exact ⟨by omega, hh.2⟩
      · intro hh
        exact ⟨by omega, hh.2⟩
    by_cases hc : A = 0 ∧ ds ∉ P.extOutputs
    · rw [if_pos (e1.mpr hc), if_pos hc]
    · rw [if_neg (fun hh => hc (e1.mp hh)), if_neg hc]

/-- Helper: one unfolding of the release trace. -/
theorem completionTrace_cons (P : Pipeline) (lc : String → Int) (n : Node)
    (rest : List Node) :
    completionTrace P lc (n :: rest) =
      (n, (nodeCompletionBook P lc n).2) ::
        completionTrace P (nodeCompletionBook P lc n).1 rest := rfl

/-- Helper: release counting over a trace head. -/
theorem releaseCount_cons (ds : String) (e : Node × List String)
    (tr : List (Node × List String)) :
    releaseCount ds (e :: tr) = e.2.count ds + releaseCount ds tr := by
  simp [releaseCount]

/-- Helper: consumption counting over an order head. -/
theorem consumeCount_cons (ds : String) (m : Node) (l : List Node) :
    consumeCount ds (m :: l) = m.inputs.count ds + consumeCount ds l := by
  simp [consumeCount]

/-- Helper: if no completion consumes or produces `ds`, the trace never
releases `ds`, whatever the load counts are. -/
theorem trace_no_release (P : Pipeline) (ds : String) :
    ∀ (order : List Node) (lc : String → Int),
      (∀ n ∈ order, n.inputs.count ds = 0) →
      (∀ n ∈ order, ds ∉ n.outputs) →
      releaseCount ds (completionTrace P lc order) = 0 ∧
      ∀ e ∈ completionTrace P lc order, ds ∉ e.2 ∧ e.1 ∈ order := by
  intro order
  induction order with
  | nil =>
    intro lc _ _
    exact ⟨rfl, by intro e he; cases he⟩
  | cons n rest ih =>
    intro lc hin hout
    have hn_in := hin n (by simp)
    have hn_out := hout n (by simp)
    have hhead : (nodeCompletionBook P lc n).2.count ds = 0 := by
      rw [nodeCompletionBook, outputsFold_count,
        inputsFold_count_zero _ _ _ _ hn_in,
        List.count_eq_zero.mpr hn_out]
      simp
    obtain ⟨hc, hm⟩ := ih (nodeCompletionBook P lc n).1
      (fun m hm2 => hin m (by simp [hm2]))
      (fun m hm2 => hout m (by simp [hm2]))
    constructor
    · rw [completionTrace_cons, releaseCount_cons, hhead, hc]
    · intro e he
      rw [completionTrace_cons] at he
      rcases List.mem_cons.mp he with rfl | he2
      · exact ⟨List.count_eq_zero.mp hhead, by simp⟩
      · obtain ⟨hm1, hm2⟩ := hm e he2
        exact ⟨hm1, by simp [hm2]⟩

/-- Helper: a run-level external input that no completion produces is never
released, whatever the load counts are. -/
theorem trace_no_release_ext (P : Pipeline) (ds : String)
    (hext : ds ∈ P.extInputs) :
    ∀ (order : List Node) (lc : String → Int),
      (∀ n ∈ order, ds ∉ n.outputs) →
      releaseCount ds (completionTrace P lc order) = 0 := by
  intro order
  induction order with
  | nil => intro lc _; rfl
  | cons n rest ih =>
    intro lc hout
    have hn_out := hout n (by simp)
    have hhead : (nodeCompletionBook P lc n).2.count ds = 0 := by
      rw [nodeCompletionBook, outputsFold_count,
        inputsFold_count_ext _ _ hext,
        List.count_eq_zero.mpr hn_out]
      simp
    rw [completionTrace_cons, releaseCount_cons, hhead,
      ih (nodeCompletionBook P lc n).1 (fun m hm2 => hout m (by simp [hm2]))]

/-- Helper: data-flow consistency restricts to the tail of the order. -/
theorem producersFirst_tail (ds : String) (m : Node) (rest : List Node)
    (h : ProducersFirst ds (m :: rest)) : ProducersFirst ds rest := by
  intro i hi hout
  have h2 := h (i + 1) (by simpa using Nat.succ_lt_succ hi) (by
    rw [List.get_cons_succ]
    exact hout)
  rw [List.get_cons_succ] at h2
  obtain ⟨ha, hb⟩ := h2
  rw [List.take_succ_cons, consumeCount_cons] at ha
  exact ⟨by omega, hb⟩

/-- Helper: a node producing `ds` consumes none of it. -/
theorem producersFirst_head_zero (ds : String) (m : Node) (rest : List Node)
    (h : ProducersFirst ds (m :: rest)) (hm : ds ∈ m.outputs) :
    m.inputs.count ds = 0 :=
  (h 0 (by simp) (by simpa using hm)).2

/-- Helper: once the head of the order has consumed `ds`, no later
completion produces `ds`. -/
theorem producersFirst_no_later (ds : String) (m : Node) (rest : List Node)
    (h : ProducersFirst ds (m :: rest)) (hc : 1 ≤ m.inputs.count ds) :
    ∀ n ∈ rest, ds ∉ n.outputs := by
  intro n hn hds
  obtain ⟨j, hj⟩ := List.mem_iff_get.mp hn
  obtain ⟨jv, hjv⟩ := j
  have h2 := h (jv + 1) (by simpa using Nat.succ_lt_succ hjv) (by
    rw [List.get_cons_succ]
    exact hj ▸ hds)
  obtain ⟨ha, _⟩ := h2
  rw [List.take_succ_cons, consumeCount_cons] at ha
  omega

/-- Helper: empty order consumes nothing. -/
theorem consumeCount_nil (ds : String) : consumeCount ds [] = 0 := rfl

/-- Helper: head entry of a release trace. -/
theorem completionTrace_get_zero (P : Pipeline) (lc : String → Int)
    (n : Node) (rest : List Node)
    (h : 0 < (completionTrace P lc (n :: rest)).length) :
    (completionTrace P lc (n :: rest)).get ⟨0, h⟩ =
      (n, (nodeCompletionBook P lc n).2) := rfl

/-- Helper: later entries of a release trace. -/
theorem completionTrace_get_succ (P : Pipeline) (lc : String → Int)
    (n : Node) (rest : List Node) (p : Nat)
    (h : p + 1 < (completionTrace P lc (n :: rest)).length) :
    (completionTrace P lc (n :: rest)).get ⟨p + 1, h⟩ =
      (completionTrace P (nodeCompletionBook P lc n).1 rest).get
        ⟨p, by
          rw [completionTrace_cons] at h
          exact Nat.lt_of_succ_lt_succ h⟩ := rfl

/-- Helper: when the load counts equal the remaining consumption, the trace
releases a consumed, non-external-input dataset exactly once, at the very
completion that performs the final consumption. -/
theorem trace_release_at_kth (P : Pipeline) (ds : String)
    (hext : ds ∉ P.extInputs) :
    ∀ (order : List Node) (lc : String → Int),
      lc ds = (consumeCount ds order : Int) →
      ProducersFirst ds order →
      0 < consumeCount ds order →
      releaseCount ds (completionTrace P lc order) = 1 ∧
      (∀ p (hp : p < (completionTrace P lc order).length),
        (ds ∈ ((completionTrace P lc order).get ⟨p, hp⟩).2 ↔
          (1 ≤ ((completionTrace P lc order).get ⟨p, hp⟩).1.inputs.count ds ∧
            consumeCount ds (order.take (p + 1)) =
              consumeCount ds order))) := by
  intro order
  induction order with
  | nil =>
    intro lc _ _ hk
    simp [consumeCount] at hk
  | cons m rest ih =>
    intro lc hlc hpf hk
    obtain ⟨hbook_lc, hbook_cnt⟩ :=
      nodeCompletionBook_count P ds m lc (consumeCount ds rest)
        (by rw [hlc, consumeCount_cons]; push_cast; ring)
    by_cases hA : consumeCount ds rest = 0
    · have hcm : 1 ≤ m.inputs.count ds := by
        rw [consumeCount_cons, hA] at hk
        omega
      have hmout : ds ∉ m.outputs := fun hmo => by
        have := producersFirst_head_zero ds m rest hpf hmo
        omega
      have hrel : (nodeCompletionBook P lc m).2.count ds = 1 := by
        rw [hbook_cnt, if_pos ⟨hcm, hA, hext⟩,
          List.count_eq_zero.mpr hmout]
        simp
      have hrest_in : ∀ n ∈ rest, n.inputs.count ds = 0 := by
        intro n hn
        have h0 : consumeCount ds rest = 0 := hA
        rw [consumeCount] at h0
        exact List.sum_eq_zero_iff.mp h0 _ (List.mem_map_of_mem _ hn)
      have hrest_out : ∀ n ∈ rest, ds ∉ n.outputs :=
        producersFirst_no_later ds m rest hpf hcm
      obtain ⟨hz, hzmem⟩ := trace_no_release P ds rest
        (nodeCompletionBook P lc m).1 hrest_in hrest_out
      constructor
      · rw [completionTrace_cons, releaseCount_cons, hrel, hz]
      · intro p
        revert p
        intro p
        match p with
        | 0 =>
          intro hp
          rw [completionTrace_get_zero]
          constructor
          · intro _
            refine ⟨hcm, ?_⟩
            rw [List.take_succ_cons, List.take_zero, consumeCount_cons,
              consumeCount_cons, consumeCount_nil, hA]
          · intro _
            exact List.count_pos_iff.mp (by rw [hrel]; omega)
        | p + 1 =>
          intro hp
          rw [completionTrace_get_succ]
          obtain ⟨hnot2, hfst⟩ := hzmem _ (List.get_mem _ _ _)
          constructor
          · intro hmm
            exact absurd hmm hnot2
          · rintro ⟨h1, _⟩
            have := hrest_in _ hfst
            omega
    · have hno_head : (nodeCompletionBook P lc m).2.count ds = 0 := by
        rw [hbook_cnt, if_neg (fun hh => hA hh.2.1),
          if_neg (fun hh => hA hh.1)]
      obtain ⟨hr1, hr2⟩ := ih (nodeCompletionBook P lc m).1
        (by rw [hbook_lc]) (producersFirst_tail ds m rest hpf)
        (Nat.pos_of_ne_zero hA)
      constructor
      · rw [completionTrace_cons, releaseCount_cons, hno_head, hr1]
      · intro p
        match p with
        | 0 =>
          intro hp
          rw [completionTrace_get_zero]
          constructor
          · intro hmm
            exact absurd hmm (List.count_eq_zero.mp hno_head)
          · rintro ⟨h1, h2⟩
            rw [List.take_succ_cons, List.take_zero, consumeCount_cons,
              consumeCount_cons, consumeCount_nil] at h2
            omega
        | p + 1 =>
          intro hp
          rw [completionTrace_get_succ]
          have hp2 : p <
              (completionTrace P (nodeCompletionBook P lc m).1 rest).length := by
            rw [completionTrace_cons] at hp
            exact Nat.lt_of_succ_lt_succ hp
          have hiff := hr2 p hp2
          rw [List.take_succ_cons, consumeCount_cons, consumeCount_cons]
          constructor
          · intro hmm
            obtain ⟨ha, hb⟩ := hiff.mp hmm
            exact ⟨ha, by omega⟩
          · rintro ⟨ha, hb⟩
            exact hiff.mpr ⟨ha, by omega⟩

/-- Helper: with no remaining consumers at all, a dataset is released at a
completion exactly when that node produces it and it is not a run-level
external output. -/
theorem trace_release_outputs (P : Pipeline) (ds : String) :
    ∀ (order : List Node) (lc : String → Int),
      lc ds = 0 →
      (∀ n ∈ order, n.inputs.count ds = 0) →
      ∀ e ∈ completionTrace P lc order,
        (ds ∈ e.2 ↔ ds ∈ e.1.outputs ∧ ds ∉ P.extOutputs) := by
  intro order
  induction order with
  | nil => intro lc _ _ e he; cases he
  | cons n rest ih =>
    intro lc hlc hin e he
    have hn_in := hin n (by simp)
    obtain ⟨h1, h2⟩ := nodeCompletionBook_count P ds n lc 0
      (by rw [hlc, hn_in]; simp)
    rw [completionTrace_cons] at he
    rcases List.mem_cons.mp he with rfl | he2
    · have hcnt : (nodeCompletionBook P lc n).2.count ds =
          (if ds ∉ P.extOutputs then n.outputs.count ds else 0) := by
        rw [h2, if_neg (by intro hh; omega)]
        by_cases hcc : ds ∉ P.extOutputs
        · rw [if_pos ⟨rfl, hcc⟩, if_pos hcc]
          omega
        · rw [if_neg (fun hh => hcc hh.2), if_neg hcc]
      constructor
      · intro hmm
        have hpos : 0 < (nodeCompletionBook P lc n).2.count ds :=
          List.count_pos_iff.mpr hmm
        by_cases hcc : ds ∉ P.extOutputs
        · rw [hcnt, if_pos hcc] at hpos
          exact ⟨List.count_pos_iff.mp hpos, hcc⟩
        · rw [hcnt, if_neg hcc] at hpos
          omega
      · rintro ⟨ho, hcc⟩
        apply List.count_pos_iff.mp
        rw [hcnt, if_pos hcc]
        exact List.count_pos_iff.mpr ho
    · exact ih (nodeCompletionBook P lc n).1 (by rw [h1]; rfl)
        (fun x hx => hin x (by simp [hx])) e he2

/-- Helper: with no remaining consumers, a dataset with exactly one
producing completion that is not a run-level external output is released
exactly once. -/
theorem trace_release_outputs_once (P : Pipeline) (ds : String)
    (hex : ds ∉ P.extOutputs) :
    ∀ (order : List Node) (lc : String → Int),
      lc ds = 0 →
      (∀ n ∈ order, n.inputs.count ds = 0) →
      order.Nodup →
      (∀ n ∈ order, n.outputs.count ds ≤ 1) →
      (∀ a ∈ order, ∀ b ∈ order, ds ∈ a.outputs → ds ∈ b.outputs → a = b) →
      (∃ n ∈ order, ds ∈ n.outputs) →
      releaseCount ds (completionTrace P lc order) = 1 := by
  intro order
  induction order with
  | nil =>
    intro lc _ _ _ _ _ hprod
    simp at hprod
  | cons n rest ih =>
    intro lc hlc hin hnd hsingle huniq hprod
    have hn_in := hin n (by simp)
    obtain ⟨h1, h2⟩ := nodeCompletionBook_count P ds n lc 0
      (by rw [hlc, hn_in]; simp)
    rw [completionTrace_cons, releaseCount_cons]
    by_cases hn_out : ds ∈ n.outputs
    · have hcnt1 : (nodeCompletionBook P lc n).2.count ds = 1 := by
        rw [h2, if_neg (by intro hh; omega), if_pos ⟨rfl, hex⟩]
        have hge : 0 < n.outputs.count ds := List.count_pos_iff.mpr hn_out
        have hle := hsingle n (by simp)
        omega
      have hrest_out : ∀ x ∈ rest, ds ∉ x.outputs := by
        intro x hx hxo
        have hxn := huniq x (by simp [hx]) n (by simp) hxo hn_out
        subst hxn
        exact (List.nodup_cons.mp hnd).1 hx
      obtain ⟨hz, _⟩ := trace_no_release P ds rest
        (nodeCompletionBook P lc n).1
        (fun x hx => hin x (by simp [hx])) hrest_out
      rw [hcnt1, hz]
    · have hcnt0 : (nodeCompletionBook P lc n).2.count ds = 0 := by
        rw [h2, if_neg (by intro hh; omega),
          List.count_eq_zero.mpr hn_out]
        simp
      have hprod2 : ∃ x ∈ rest, ds ∈ x.outputs := by
        obtain ⟨x, hx, hxo⟩ := hprod
        rcases List.mem_cons.mp hx with rfl | hx2
        · exact absurd hxo hn_out
        · exact ⟨x, hx2, hxo⟩
      rw [hcnt0, ih (nodeCompletionBook P lc n).1 (by rw [h1]; rfl)
        (fun x hx => hin x (by simp [hx]))
        (List.nodup_cons.mp hnd).2
        (fun x hx => hsingle x (by simp [hx]))
        (fun a ha b hb => huniq a (by simp [ha]) b (by simp [hb]))
        hprod2]

/-- Helper: the `Counter` initialisation equals the total consumption of a
completion order that is a permutation of the pipeline nodes. -/
theorem loadCountsInit_eq_consume (P : Pipeline) (order : List Node)
    (ds : String) (h : order.Perm P.nodes) :
    loadCountsInit P ds = (consumeCount ds order : Int) := by
  rw [loadCountsInit, consumeCount]
  have hperm : (order.map fun n => ((n.inputs.count ds : Int))).Perm
      (P.nodes.map fun n => ((n.inputs.count ds : Int))) := h.map _
  rw [← hperm.sum_eq, Nat.cast_list_sum, List.map_map]
  rfl

/-- C3: load-count release timing.  In a full run (the completion order is
a permutation of the duplicate-free pipeline) whose order is data-flow
consistent for dataset `ds` (producers complete before consumers, at most
one producing node):
a dataset consumed `k ≥ 1` times is released exactly once, namely at the
completion whose consumption reaches the `k`-th and final load-count
decrement, unless it is a run-level external input; a run-level external
input that no node produces is never released mid-run; and a produced
dataset with no consumers is released exactly at its producing node's
completion (exactly once), unless it is a run-level external output. -/
theorem load_count_release_timing (P : Pipeline) (order : List Node)
    (ds : String)
    (hperm : order.Perm P.nodes)
    (hnd : order.Nodup)
    (hpf : ProducersFirst ds order)
    (hsingle : ∀ n ∈ order, n.outputs.count ds ≤ 1)
    (huniq : ∀ a ∈ order, ∀ b ∈ order,
      ds ∈ a.outputs → ds ∈ b.outputs → a = b) :
    (0 < consumeCount ds order → ds ∉ P.extInputs →
      releaseCount ds (runReleases P order) = 1 ∧
      ∀ p (hp : p < (runReleases P order).length),
        (ds ∈ ((runReleases P order).get ⟨p, hp⟩).2 ↔
          (1 ≤ ((runReleases P order).get ⟨p, hp⟩).1.inputs.count ds ∧
            consumeCount ds (order.take (p + 1)) =
              consumeCount ds order))) ∧
    (ds ∈ P.extInputs → (∀ n ∈ order, ds ∉ n.outputs) →
      releaseCount ds (runReleases P order) = 0) ∧
    (consumeCount ds order = 0 →
      (∀ e ∈ runReleases P order,
        (ds ∈ e.2 ↔ ds ∈ e.1.outputs ∧ ds ∉ P.extOutputs)) ∧
      ((∃ n ∈ order, ds ∈ n.outputs) → ds ∉ P.extOutputs →
        releaseCount ds (runReleases P order) = 1)) := by
  have hinit := loadCountsInit_eq_consume P order ds hperm
  refine ⟨fun hk hext => ?_, fun hext hnoprod => ?_, fun hzero => ?_⟩
  · exact trace_release_at_kth P ds hext order (loadCountsInit P)
      hinit hpf hk
  · exact trace_no_release_ext P ds hext order (loadCountsInit P) hnoprod
  · have hlc0 : loadCountsInit P ds = 0 := by
      rw [hinit, hzero]
      rfl
    have hin0 : ∀ n ∈ order, n.inputs.count ds = 0 := by
      intro n hn
      rw [consumeCount] at hzero
      exact List.sum_eq_zero_iff.mp hzero _ (List.mem_map_of_mem _ hn)
    exact ⟨trace_release_outputs P ds order (loadCountsInit P) hlc0 hin0,
      fun hprod hexo => trace_release_outputs_once P ds hexo order
        (loadCountsInit P) hlc0 hin0 hnd hsingle huniq hprod⟩

/-- Witness for `load_count_release_timing`: in the two-node sample
pipeline, dataset `a` (consumed once, not an external input) is released
exactly once. -/
theorem load_count_release_timing_witness :
    (0 < consumeCount "a" [sampleA, sampleB] ∧
      "a" ∉ samplePipeline.extInputs) ∧
    releaseCount "a" (runReleases samplePipeline [sampleA, sampleB]) = 1 :=
  ⟨⟨by decide, by decide⟩,
    ((load_count_release_timing samplePipeline [sampleA, sampleB] "a"
      (by decide) (by decide) (by unfold ProducersFirst; decide)
      (by decide) (by decide)).1 (by decide) (by decide)).1⟩

end KedroParallel
